import Mathlib

/-!
# currencyservice: the `/convert` request path

A shallow embedding of `src/currencyservice/main.go`: the rate table `currencies`,
`ConvertRequest.IsValid`, `returnError` and `convertHandler.ServeHTTP`, together with the
parts of the Go language and standard library that the handler's result depends on
(byte strings and slicing, `strconv.Atoi`, IEEE 754 binary64 arithmetic, `math.Floor`,
and the numeric conversions `float64(int)` and `int(float64)`).
-/

namespace CurrencyService

/-! ## Go strings -/

/-- A byte, the element type of a Go string. -/
abbrev Byte := Fin 256

/-- A Go string is a sequence of bytes; `len` is `List.length`. -/
abbrev GoString := List Byte

/-- The bytes of a string literal or of decoded text: its UTF-8 encoding. -/
def str (s : String) : GoString :=
  (s.data.flatMap String.utf8EncodeChar).map (fun b => Fin.ofNat b.toNat)

/-- The slice expression `s[lo:]`; it panics (`none`) when `lo > len(s)`. -/
def sliceFrom (s : GoString) (lo : Nat) : Option GoString :=
  if lo ≤ s.length then some (s.drop lo) else none

/-- The slice expression `s[:hi]`; it panics (`none`) when `hi > len(s)`. -/
def sliceTo (s : GoString) (hi : Nat) : Option GoString :=
  if hi ≤ s.length then some (s.take hi) else none

/-! ## `strconv.Atoi` (base 10, 64-bit `int`) -/

/-- The two error kinds of `strconv.NumError`. -/
inductive NumError
  | ErrSyntax
  | ErrRange
deriving DecidableEq, Repr

/-- The size in bits of `int` (`strconv.IntSize`) on the 64-bit targets the service runs on. -/
def intSize : Nat := 64

/-- The constant `maxUint64`. -/
def maxUint64 : Nat := 2 ^ 64 - 1

/-- Whether `c` is one of `'0'..'9'`. -/
def isDigit (c : Byte) : Bool := 48 ≤ c.val && c.val ≤ 57

/-- The digit loop of `strconv.ParseUint(s, 10, 0)`, with `n` the accumulator (a `uint64`).
`cutoff = maxUint64/10 + 1` and `maxVal = 1<<64 - 1`. A byte that is not a decimal digit (a
letter has digit value `>= base`, and `'_'` is only skipped when `base == 0`) is a syntax
error; an overflow stops the loop at once with `maxVal` and a range error. -/
def parseUintLoop : GoString → Nat → Nat × Option NumError
  | [], n => (n, none)
  | c :: cs, n =>
    if isDigit c then
      let d := c.val - 48
      if n ≥ maxUint64 / 10 + 1 then (maxUint64, some NumError.ErrRange)
      else
        let n10 := (n * 10) % 2 ^ 64
        let n1 := (n10 + d) % 2 ^ 64
        if n1 < n10 ∨ n1 > maxUint64 then (maxUint64, some NumError.ErrRange)
        else parseUintLoop cs n1
    else (0, some NumError.ErrSyntax)

/-- The function `strconv.ParseUint(s, 10, 0)`. -/
def ParseUint (s : GoString) : Nat × Option NumError :=
  if s = [] then (0, some NumError.ErrSyntax) else parseUintLoop s 0

/-- The function `strconv.ParseInt(s, 10, 0)`: picks off a leading sign, parses the rest
unsigned and checks the range against `cutoff = 1 << (intSize-1)`. -/
def ParseInt (s : GoString) : Int × Option NumError :=
  match s with
  | [] => (0, some NumError.ErrSyntax)
  | c :: cs =>
    let neg := c = 45
    let s1 := if c = 43 then cs else if c = 45 then cs else s
    let (un, err) := ParseUint s1
    if err = some NumError.ErrSyntax then (0, err)
    else
      let cutoff := 2 ^ (intSize - 1)
      if ¬ neg ∧ un ≥ cutoff then ((cutoff : Int) - 1, some NumError.ErrRange)
      else if neg ∧ un > cutoff then (-(cutoff : Int), some NumError.ErrRange)
      else (if neg then -(un : Int) else (un : Int), none)

/-- The digit loop of the fast path of `strconv.Atoi`: `ch -= '0'` is byte arithmetic, so a
byte below `'0'` wraps to a value above 9. At most 18 bytes are scanned, so `n*10 + ch`
stays below `10^18` and the `int` accumulator never wraps. -/
def atoiFastLoop : GoString → Nat → Option Nat
  | [], n => some n
  | c :: cs, n =>
    let ch : Byte := c - 48
    if ch.val > 9 then none else atoiFastLoop cs (n * 10 + ch.val)

/-- The function `strconv.Atoi`: a fast path for strings of 1 to 18 bytes, and
`ParseInt(s, 10, 0)` otherwise. The result is the pair `(value, err)` that Go returns. -/
def Atoi (s : GoString) : Int × Option NumError :=
  match s with
  | [] => ParseInt s
  | c :: cs =>
    if s.length < 19 then
      let s1 := if c = 45 ∨ c = 43 then cs else s
      if (c = 45 ∨ c = 43) ∧ s1.length < 1 then (0, some NumError.ErrSyntax)
      else
        match atoiFastLoop s1 0 with
        | none => (0, some NumError.ErrSyntax)
        | some n => (if c = 45 then -(n : Int) else (n : Int), none)
    else ParseInt s

/-! ## IEEE 754 binary64 -/

/-- A `float64` value: a NaN, an infinity, a signed zero, or a nonzero finite number given
by its exact rational value. -/
inductive F64
  | nan
  | inf (neg : Bool)
  | zero (neg : Bool)
  | fin (q : ℚ)
deriving DecidableEq

/-- Number of binary digits of `n`, by halving (`fuel` bounds the number of steps). -/
def bitLenAux : Nat → Nat → Nat
  | 0, _ => 0
  | fuel + 1, n => if n = 0 then 0 else bitLenAux fuel (n / 2) + 1

/-- Number of binary digits of `n`: `0` for `0`, and `k` when `2^(k-1) ≤ n < 2^k`. -/
def bitLen (n : Nat) : Nat := bitLenAux n n

/-- The power of two `2^e` as a rational, for any integer exponent. -/
def pow2 (e : Int) : ℚ :=
  if 0 ≤ e then ((2 ^ e.toNat : Nat) : ℚ) else 1 / ((2 ^ (-e).toNat : Nat) : ℚ)

/-- The binary exponent of a positive rational: the `e` with `2^e ≤ q < 2^(e+1)`. -/
def floorExp (q : ℚ) : Int :=
  let e0 : Int := (bitLen q.num.natAbs : Int) - (bitLen q.den : Int)
  if pow2 e0 ≤ q then e0 else e0 - 1

/-- Rounding to the nearest integer, ties to the even one. -/
def roundHalfEven (q : ℚ) : Int :=
  let f := ⌊q⌋
  let r := q - f
  if r < 1 / 2 then f
  else if 1 / 2 < r then f + 1
  else if f % 2 = 0 then f else f + 1

/-- Rounding of a positive rational to the binary64 grid (53 significant bits, minimum
exponent -1022, so subnormals are spaced `2^-1074` apart), to nearest, ties to even. The
result is not yet checked for overflow. -/
def roundMag (q : ℚ) : ℚ :=
  let e := max (floorExp q) (-1022)
  let u := pow2 (e - 52)
  (roundHalfEven (q / u) : ℚ) * u

/-- The binary64 value nearest to the exact result `q` of an operation whose exact result
has sign `neg` when it is zero: overflow gives an infinity, underflow a signed zero. -/
def F64.round (q : ℚ) (neg : Bool) : F64 :=
  if q = 0 then F64.zero neg
  else
    let r := roundMag |q|
    if pow2 1024 ≤ r then F64.inf (decide (q < 0))
    else if r = 0 then F64.zero (decide (q < 0))
    else F64.fin (if q < 0 then -r else r)

/-- A floating-point constant of the program text, converted to `float64`. -/
def F64.ofRat (q : ℚ) : F64 := F64.round q false

/-- The conversion `float64(n)` of an `int`. -/
def F64.ofInt (n : Int) : F64 := F64.round (n : ℚ) false

/-- The sign bit of a `float64` that is not a NaN. -/
def F64.sign : F64 → Bool
  | F64.nan => false
  | F64.inf neg => neg
  | F64.zero neg => neg
  | F64.fin q => decide (q < 0)

/-- The quotient `x / y` of two `float64` values. -/
def F64.div (x y : F64) : F64 :=
  match x, y with
  | F64.nan, _ => F64.nan
  | _, F64.nan => F64.nan
  | F64.inf _, F64.inf _ => F64.nan
  | F64.zero _, F64.zero _ => F64.nan
  | F64.inf a, y => F64.inf (xor a y.sign)
  | x, F64.inf b => F64.zero (xor x.sign b)
  | F64.zero a, y => F64.zero (xor a y.sign)
  | x, F64.zero b => F64.inf (xor x.sign b)
  | F64.fin p, F64.fin q => F64.round (p / q) (xor (decide (p < 0)) (decide (q < 0)))

/-- The product `x * y` of two `float64` values. -/
def F64.mul (x y : F64) : F64 :=
  match x, y with
  | F64.nan, _ => F64.nan
  | _, F64.nan => F64.nan
  | F64.inf _, F64.zero _ => F64.nan
  | F64.zero _, F64.inf _ => F64.nan
  | F64.inf a, y => F64.inf (xor a y.sign)
  | x, F64.inf b => F64.inf (xor x.sign b)
  | F64.zero a, y => F64.zero (xor a y.sign)
  | x, F64.zero b => F64.zero (xor x.sign b)
  | F64.fin p, F64.fin q => F64.round (p * q) (xor (decide (p < 0)) (decide (q < 0)))

/-- The function `math.Floor`: NaN, infinities and zeros are returned unchanged; a finite
value goes to the greatest integer not above it (`+0` for a value in `(0,1)`). -/
def F64.floor : F64 → F64
  | F64.nan => F64.nan
  | F64.inf neg => F64.inf neg
  | F64.zero neg => F64.zero neg
  | F64.fin q => if ⌊q⌋ = 0 then F64.zero false else F64.fin (⌊q⌋ : ℚ)

/-- The value that `int(x)` yields when `x` is a NaN, an infinity, or out of the range of
`int`: Go leaves it implementation-dependent; on amd64 it is the "integer indefinite"
`-2^63` of the `CVTTSD2SQ` instruction. -/
def intIndefinite : Int := -(2 ^ 63)

/-- Truncation of a rational toward zero. -/
def truncate (q : ℚ) : Int := if q < 0 then -⌊-q⌋ else ⌊q⌋

/-- The conversion `int(x)` of a `float64`: truncation toward zero when the result fits
in a 64-bit `int`. -/
def F64.toInt : F64 → Int
  | F64.nan => intIndefinite
  | F64.inf _ => intIndefinite
  | F64.zero _ => 0
  | F64.fin q =>
    let t : Int := truncate q
    if -(2 ^ 63) ≤ t ∧ t < 2 ^ 63 then t else intIndefinite

/-- The exact value of a finite `float64` (and `0` for NaN and the infinities). -/
def F64.toRat : F64 → ℚ
  | F64.fin q => q
  | _ => 0

/-- Whether a `float64` is a zero or a nonzero finite number. -/
def F64.isFinite : F64 → Bool
  | F64.fin _ => true
  | F64.zero _ => true
  | _ => false

/-! ## The service -/

/-- ConvertRequest stores request data. -/
structure ConvertRequest where
  Value : GoString
deriving DecidableEq

/-- ConvertResponse stores response data. -/
structure ConvertResponse where
  Answer : Int
deriving DecidableEq

/-- ErrorJSON defines error message as JSON. -/
structure ErrorJSON where
  Error : GoString
  Message : GoString
deriving DecidableEq

/-- A value handed to `json.NewEncoder(w).Encode`. -/
inductive Payload
  | convert (r : ConvertResponse)
  | error (e : ErrorJSON)
deriving DecidableEq

/-- What a handler has done to its `http.ResponseWriter`: the `Content-Type` header it
set, the status it wrote, and the values it encoded into the body, in order. -/
structure ResponseWriter where
  contentType : Option GoString
  status : Option Nat
  body : List Payload
deriving DecidableEq

/-- A fresh `http.ResponseWriter`. -/
def ResponseWriter.fresh : ResponseWriter := ⟨none, none, []⟩

/-- An `http.Request`, reduced to what the handler reads of it: the outcome of
`json.NewDecoder(r.Body).Decode(&convertRequest)`, `none` when `Decode` returns an error
and the decoded struct otherwise. -/
structure Request where
  decoded : Option ConvertRequest

/-- A `map[string]float64`, as its list of entries. -/
abbrev RateTable := List (GoString × F64)

/-- The index expression `m[k]` in its two-result form `v, ok := m[k]`. -/
def RateTable.get? (m : RateTable) (k : GoString) : Option F64 := m.lookup k

/-- The index expression `m[k]`: the zero value `0` when the key is absent. -/
def RateTable.get (m : RateTable) (k : GoString) : F64 := (m.lookup k).getD (F64.zero false)

/-- The handler type, holding the rate table. -/
structure convertHandler where
  currencies : RateTable

/-- The function `currencies`. -/
def currencies : RateTable :=
  [ (str "JPY", F64.ofRat 100),
    (str "USD", F64.ofRat (82 / 100)),
    (str "EUR", F64.ofRat (74 / 100)),
    (str "BRL", F64.ofRat (396 / 100)),
    (str "AUD", F64.ofRat (109 / 100)) ]

/-- The method `ConvertRequest.IsValid`; `none` is a slice-bounds panic. -/
def ConvertRequest.IsValid (s : ConvertRequest) : Option Bool :=
  if s.Value.length < 4 then some false
  else do
    let t ← sliceFrom s.Value 3
    if (Atoi t).2 ≠ none then pure false
    else pure true

/-- The constant `http.StatusOK`. -/
def StatusOK : Nat := 200

/-- The constant `http.StatusBadRequest`. -/
def StatusBadRequest : Nat := 400

/-- The function `returnError`. -/
def returnError (w : ResponseWriter) (message : GoString) : ResponseWriter :=
  let w := { w with contentType := some (str "application/json") }
  let w := { w with status := some StatusBadRequest }
  let errorJSON : ErrorJSON := { Error := str "Bad Request", Message := message }
  { w with body := w.body ++ [Payload.error errorJSON] }

/-- The method `convertHandler.ServeHTTP`; `none` is a slice-bounds panic. -/
def ServeHTTP (h : convertHandler) (w : ResponseWriter) (r : Request) :
    Option ResponseWriter :=
  match r.decoded with
  | none => some (returnError w (str "Failed to decode data"))
  | some convertRequest => do
    let valid ← convertRequest.IsValid
    if ¬ valid then
      pure (returnError w (str "Invalid format: " ++ convertRequest.Value))
    else
      let code ← sliceTo convertRequest.Value 3
      match h.currencies.get? code with
      | none => pure (returnError w (str "Unknown currency: " ++ code))
      | some _ =>
        let t ← sliceFrom convertRequest.Value 3
        let num := (Atoi t).1
        let code2 ← sliceTo convertRequest.Value 3
        let currency := h.currencies.get code2
        let answer := F64.floor (F64.mul (F64.div (h.currencies.get (str "JPY")) currency)
          (F64.ofInt num))
        let convertResponse : ConvertResponse := { Answer := answer.toInt }
        let w := { w with contentType := some (str "application/json") }
        let w := { w with status := some StatusOK }
        pure { w with body := w.body ++ [Payload.convert convertResponse] }

/-- The request whose body decodes to the value `v`. -/
def Request.ofValue (v : GoString) : Request := ⟨some ⟨v⟩⟩

/-- The response the handler writes for an error message. -/
def errorResponse (message : GoString) : ResponseWriter :=
  ⟨some (str "application/json"), some 400, [Payload.error ⟨str "Bad Request", message⟩]⟩

/-- The response the handler writes for an answer. -/
def answerResponse (a : Int) : ResponseWriter :=
  ⟨some (str "application/json"), some 200, [Payload.convert ⟨a⟩]⟩


/-! ## Decimal numerals, as the specification words them -/

/-- The number denoted by a run of decimal digits that continues the numeral `n`. -/
def digitsVal : GoString → Nat → Nat
  | [], n => n
  | c :: cs, n => digitsVal cs (n * 10 + (c.val - 48))

/-- An optional single leading `'+'` or `'-'` followed by at least one ASCII digit and
nothing else. -/
def isSignedDecimal (s : GoString) : Bool :=
  match s with
  | [] => false
  | c :: cs =>
    if c = 43 ∨ c = 45 then !cs.isEmpty && cs.all isDigit else s.all isDigit

/-- The integer denoted by a signed decimal numeral. -/
def signedValue (s : GoString) : Int :=
  match s with
  | [] => 0
  | c :: cs =>
    if c = 45 then -(digitsVal cs 0 : Int)
    else if c = 43 then (digitsVal cs 0 : Int)
    else (digitsVal s 0 : Int)

/-! ## Auxiliary notions used in the statements -/

/-- The range of a 64-bit `int`. -/
def inIntRange (n : Int) : Prop := -(2 ^ 63) ≤ n ∧ n < 2 ^ 63

/-- The conversion expression of `ServeHTTP`, for the rate `currency` and the amount `num`
under the table `m`. -/
def conversion (m : RateTable) (currency : F64) (num : Int) : F64 :=
  F64.mul (F64.div (m.get (str "JPY")) currency) (F64.ofInt num)

/-- Whether the floor of a `float64` is representable in a 64-bit `int`. -/
def F64.fitsInt (x : F64) : Prop := x.isFinite = true ∧ inIntRange ⌊x.toRat⌋

/-- The spacing of the binary64 grid around a positive rational. -/
def ulp (q : ℚ) : ℚ := pow2 (max (floorExp q) (-1022) - 52)

/-- A method with the pointer receiver `h *convertHandler`, by explicit state passing: it
runs from the handler before the call to its result and the handler after the call, or
panics (`none`). -/
abbrev HandlerM (α : Type) := StateT convertHandler Option α

/-- The index expression `h.currencies[k]` in its two-result form `v, ok := h.currencies[k]`:
it reads the map of the receiver. -/
def readRateOk (k : GoString) : HandlerM (Option F64) := do
  let h ← get
  pure (h.currencies.get? k)

/-- The index expression `h.currencies[k]`: it reads the map of the receiver. -/
def readRate (k : GoString) : HandlerM F64 := do
  let h ← get
  pure (h.currencies.get k)

/-- An assignment `h.currencies[k] = x` through the receiver: the entry for `k` is set. The
body of `ServeHTTP` contains no such statement. -/
def assignRate (k : GoString) (x : F64) : HandlerM Unit :=
  modify (fun h => ⟨(k, x) :: h.currencies.filter (fun p => !(p.1 == k))⟩)

/-- The method `convertHandler.ServeHTTP` with its receiver threaded as state, statement
by statement: the decode, the validity check, the lookup `_, ok := h.currencies[Value[:3]]`,
the second parse, the reads `h.currencies[Value[:3]]` and `h.currencies["JPY"]`, and the
writes to `w`. -/
def convertHandler.ServeHTTP (w : ResponseWriter) (r : Request) : HandlerM ResponseWriter :=
  match r.decoded with
  | none => pure (returnError w (str "Failed to decode data"))
  | some convertRequest => do
    let valid ← (convertRequest.IsValid : Option Bool)
    if ¬ valid then
      pure (returnError w (str "Invalid format: " ++ convertRequest.Value))
    else
      let code ← (sliceTo convertRequest.Value 3 : Option GoString)
      let ok ← readRateOk code
      match ok with
      | none => pure (returnError w (str "Unknown currency: " ++ code))
      | some _ =>
        let t ← (sliceFrom convertRequest.Value 3 : Option GoString)
        let num := (Atoi t).1
        let code2 ← (sliceTo convertRequest.Value 3 : Option GoString)
        let currency ← readRate code2
        let jpy ← readRate (str "JPY")
        let answer := F64.floor (F64.mul (F64.div jpy currency) (F64.ofInt num))
        let convertResponse : ConvertResponse := { Answer := answer.toInt }
        let w := { w with contentType := some (str "application/json") }
        let w := { w with status := some StatusOK }
        pure { w with body := w.body ++ [Payload.convert convertResponse] }

/-- The server loop on one handler: the requests are served one after the other, each
with a fresh writer, by the handler as the previous call left it; the result is the list
of responses, in order. -/
def serveAll : List Request → HandlerM (List ResponseWriter)
  | [] => pure []
  | r :: rs => do
    let w ← convertHandler.ServeHTTP ResponseWriter.fresh r
    let ws ← serveAll rs
    pure (w :: ws)

theorem digitsVal_ge (s : GoString) (n : Nat) : n ≤ digitsVal s n := by
  induction s generalizing n with
  | nil => simp [digitsVal]
  | cons c cs ih =>
    have := ih (n * 10 + (c.val - 48))
    simp only [digitsVal]
    omega

theorem digitsVal_lt (s : GoString) (n : Nat) (h : s.all isDigit = true) :
    digitsVal s n < (n + 1) * 10 ^ s.length := by
  induction s generalizing n with
  | nil => simp [digitsVal]
  | cons c cs ih =>
    simp only [List.all_cons, Bool.and_eq_true] at h
    have hc : c.val ≤ 57 := by
      have := h.1
      simp only [isDigit, Bool.and_eq_true, decide_eq_true_eq] at this
      exact this.2
    have h1 := ih (n * 10 + (c.val - 48)) h.2
    simp only [digitsVal, List.length_cons]
    have h2 : (n * 10 + (c.val - 48) + 1) * 10 ^ cs.length ≤ (n + 1) * 10 * 10 ^ cs.length :=
      Nat.mul_le_mul_right _ (by omega)
    calc digitsVal cs (n * 10 + (c.val - 48))
        < (n * 10 + (c.val - 48) + 1) * 10 ^ cs.length := h1
      _ ≤ (n + 1) * 10 * 10 ^ cs.length := h2
      _ = (n + 1) * 10 ^ (cs.length + 1) := by rw [pow_succ]; ring

theorem sub48_val (c : Byte) : (c - 48 : Byte).val = (208 + c.val) % 256 := by
  rw [Fin.sub_def]
  rfl

theorem atoiFastLoop_eq (s : GoString) (n : Nat) :
    atoiFastLoop s n = if s.all isDigit then some (digitsVal s n) else none := by
  induction s generalizing n with
  | nil => simp [atoiFastLoop, digitsVal]
  | cons c cs ih =>
    have hc := c.isLt
    simp only [atoiFastLoop, sub48_val, List.all_cons, digitsVal, ih]
    by_cases hd : isDigit c = true
    · have hd2 := hd
      simp only [isDigit, Bool.and_eq_true, decide_eq_true_eq] at hd2
      have e : (208 + c.val) % 256 = c.val - 48 := by omega
      have e2 : ¬ (c.val - 48 > 9) := by omega
      simp [hd, e, e2]
    · have hd2 := hd
      simp only [isDigit, Bool.and_eq_true, decide_eq_true_eq, not_and, not_le] at hd2
      have e2 : (208 + c.val) % 256 > 9 := by omega
      simp [hd, e2]

theorem parseUintLoop_spec (s : GoString) (n : Nat) (hn : n < 2 ^ 64) :
    ((parseUintLoop s n).2 = none ↔ (s.all isDigit = true ∧ digitsVal s n < 2 ^ 64)) ∧
    ((parseUintLoop s n).2 = none → (parseUintLoop s n).1 = digitsVal s n) ∧
    ((parseUintLoop s n).2 = some NumError.ErrRange → (parseUintLoop s n).1 = 2 ^ 64 - 1) ∧
    (s.all isDigit = true → (parseUintLoop s n).2 ≠ some NumError.ErrSyntax) := by
  induction s generalizing n with
  | nil =>
    refine ⟨?_, ?_, ?_, ?_⟩
    · simp only [parseUintLoop, digitsVal, List.all_nil, true_and, true_iff]
      exact hn
    · simp [parseUintLoop, digitsVal]
    · simp [parseUintLoop]
    · simp [parseUintLoop]
  | cons c cs ih =>
    have hc := c.isLt
    simp only [parseUintLoop, List.all_cons, digitsVal, maxUint64]
    by_cases hd : isDigit c = true
    · have hd2 := hd
      simp only [isDigit, Bool.and_eq_true, decide_eq_true_eq] at hd2
      have hge := digitsVal_ge cs (n * 10 + (c.val - 48))
      by_cases hcut : n ≥ (2 ^ 64 - 1) / 10 + 1
      · simp only [hd, if_true, hcut]
        refine ⟨?_, ?_, ?_, ?_⟩
        · simp only [reduceCtorEq, Bool.true_and, false_iff, not_and, not_lt]
          intro _
          omega
        · simp
        · simp
        · simp
      · simp only [hd, if_true, hcut, if_false]
        have h10 : n * 10 % 2 ^ 64 = n * 10 := Nat.mod_eq_of_lt (by omega)
        rw [h10]
        by_cases hov : n * 10 + (c.val - 48) < 2 ^ 64
        · have h1 : (n * 10 + (c.val - 48)) % 2 ^ 64 = n * 10 + (c.val - 48) :=
            Nat.mod_eq_of_lt hov
          rw [h1]
          have h2 : ¬ (n * 10 + (c.val - 48) < n * 10 ∨ n * 10 + (c.val - 48) > 2 ^ 64 - 1) := by
            omega
          simp only [h2, if_false, Bool.true_and]
          exact ih _ hov
        · have h1 : (n * 10 + (c.val - 48)) % 2 ^ 64 = n * 10 + (c.val - 48) - 2 ^ 64 := by
            omega
          rw [h1]
          have h2 : (n * 10 + (c.val - 48) - 2 ^ 64 < n * 10 ∨
              n * 10 + (c.val - 48) - 2 ^ 64 > 2 ^ 64 - 1) := by omega
          simp only [h2, if_true]
          refine ⟨?_, ?_, ?_, ?_⟩
          · simp only [reduceCtorEq, Bool.true_and, false_iff, not_and, not_lt]
            intro _
            omega
          · simp
          · simp
          · simp
    · simp [hd]

theorem ParseUint_spec (s : GoString) :
    ((ParseUint s).2 = none ↔ (s ≠ [] ∧ s.all isDigit = true ∧ digitsVal s 0 < 2 ^ 64)) ∧
    ((ParseUint s).2 = none → (ParseUint s).1 = digitsVal s 0) ∧
    ((ParseUint s).2 = some NumError.ErrRange → (ParseUint s).1 = 2 ^ 64 - 1) ∧
    (s ≠ [] → s.all isDigit = true → (ParseUint s).2 ≠ some NumError.ErrSyntax) := by
  by_cases hs : s = []
  · subst hs
    simp [ParseUint]
  · have h := parseUintLoop_spec s 0 (by norm_num)
    simp only [ParseUint, hs, if_false, ne_eq, not_false_eq_true, true_and, true_implies]
    exact h

/-- What the sign-and-range step of `ParseInt` yields from the unsigned parse of `s1`. -/
theorem parseInt_tail (neg : Prop) [Decidable neg] (s1 : GoString) (r : Int × Option NumError)
    (hr : r = (match ParseUint s1 with
      | (un, err) =>
        if err = some NumError.ErrSyntax then ((0 : Int), err)
        else if ¬ neg ∧ un ≥ 2 ^ (intSize - 1) then
          (((2 ^ (intSize - 1) : Nat) : Int) - 1, some NumError.ErrRange)
        else if neg ∧ un > 2 ^ (intSize - 1) then
          (-((2 ^ (intSize - 1) : Nat) : Int), some NumError.ErrRange)
        else (if neg then -(un : Int) else (un : Int), none))) :
    (r.2 = none ↔ (s1 ≠ [] ∧ s1.all isDigit = true ∧
      (if neg then digitsVal s1 0 ≤ 2 ^ 63 else digitsVal s1 0 < 2 ^ 63))) ∧
    (r.2 = none → r.1 = if neg then -(digitsVal s1 0 : Int) else (digitsVal s1 0 : Int)) := by
  obtain ⟨h1, h2, h3, h4⟩ := ParseUint_spec s1
  rcases hp : ParseUint s1 with ⟨un, err⟩
  rw [hp] at h1 h2 h3 h4 hr
  simp only [intSize] at hr
  simp only at h1 h2 h3 h4 hr
  subst hr
  by_cases he : err = some NumError.ErrSyntax
  · simp only [he, if_true, reduceCtorEq, false_iff, false_implies, and_true]
    intro ⟨a, b, _⟩
    exact h4 a b he
  · simp only [he, if_false]
    by_cases hn : neg
    · simp only [hn, not_true_eq_false, false_and, if_false, true_and, if_true]
      rcases err with _ | e
      · have hv := h2 rfl
        have hh := h1.1 rfl
        subst hv
        by_cases hc : digitsVal s1 0 > 2 ^ (64 - 1)
        · simp only [hc, if_true, reduceCtorEq, false_iff, false_implies, and_true]
          intro ⟨_, _, c⟩
          omega
        · simp only [hc, if_false, true_iff, true_implies, and_true]
          exact ⟨hh.1, hh.2.1, by omega⟩
      · cases e with
        | ErrSyntax => exact absurd rfl he
        | ErrRange =>
          have hv := h3 rfl
          subst hv
          have hc : 2 ^ 64 - 1 > 2 ^ (64 - 1) := by norm_num
          simp only [hc, if_true, reduceCtorEq, false_iff, false_implies, and_true]
          intro ⟨a, b, c⟩
          have := h1.2 ⟨a, b, by omega⟩
          exact absurd this (by simp)
    · simp only [hn, not_false_eq_true, true_and, false_and, if_false]
      rcases err with _ | e
      · have hv := h2 rfl
        have hh := h1.1 rfl
        subst hv
        by_cases hc : digitsVal s1 0 ≥ 2 ^ (64 - 1)
        · simp only [hc, if_true, reduceCtorEq, false_iff, false_implies, and_true]
          intro ⟨_, _, c⟩
          omega
        · simp only [hc, if_false, true_iff, true_implies, and_true]
          exact ⟨hh.1, hh.2.1, by omega⟩
      · cases e with
        | ErrSyntax => exact absurd rfl he
        | ErrRange =>
          have hv := h3 rfl
          subst hv
          have hc : 2 ^ 64 - 1 ≥ 2 ^ (64 - 1) := by norm_num
          simp only [hc, if_true, reduceCtorEq, false_iff, false_implies, and_true]
          intro ⟨a, b, c⟩
          have := h1.2 ⟨a, b, by omega⟩
          exact absurd this (by simp)

theorem ParseInt_spec (s : GoString) :
    ((ParseInt s).2 = none ↔ (isSignedDecimal s = true ∧ inIntRange (signedValue s))) ∧
    ((ParseInt s).2 = none → (ParseInt s).1 = signedValue s) := by
  cases s with
  | nil => simp [ParseInt, isSignedDecimal]
  | cons c cs =>
    by_cases h45 : c = 45
    · subst h45
      have h := parseInt_tail (True) cs (ParseInt ((45 : Byte) :: cs)) (by
        simp [ParseInt])
      simp only [if_true] at h
      refine ⟨?_, ?_⟩
      · rw [h.1]
        simp only [isSignedDecimal, signedValue, inIntRange, or_true, if_true,
          Bool.and_eq_true, Bool.not_eq_true', List.isEmpty_eq_false]
        constructor
        · rintro ⟨a, b, c⟩
          exact ⟨⟨a, b⟩, by omega, by omega⟩
        · rintro ⟨⟨a, b⟩, c, _⟩
          exact ⟨a, b, by omega⟩
      · intro hh
        rw [h.2 hh]
        simp [signedValue]
    · by_cases h43 : c = 43
      · subst h43
        have h := parseInt_tail (False) cs (ParseInt ((43 : Byte) :: cs)) (by
          simp [ParseInt])
        simp only [if_false] at h
        refine ⟨?_, ?_⟩
        · rw [h.1]
          have hne : ¬ ((43 : Byte) = 45) := by decide
          simp only [isSignedDecimal, signedValue, inIntRange, true_or, if_true, hne, if_false,
            Bool.and_eq_true, Bool.not_eq_true', List.isEmpty_eq_false]
          constructor
          · rintro ⟨a, b, c⟩
            exact ⟨⟨a, b⟩, by omega, by omega⟩
          · rintro ⟨⟨a, b⟩, _, hc⟩
            exact ⟨a, b, by omega⟩
        · intro hh
          rw [h.2 hh]
          simp [signedValue]
      · have h := parseInt_tail (False) (c :: cs) (ParseInt (c :: cs)) (by
          simp [ParseInt, h45, h43])
        simp only [if_false] at h
        refine ⟨?_, ?_⟩
        · rw [h.1]
          simp only [isSignedDecimal, signedValue, inIntRange, h45, h43, or_self, if_false]
          constructor
          · rintro ⟨_, b, c⟩
            refine ⟨b, ?_, ?_⟩
            · exact le_trans (by norm_num) (Int.ofNat_nonneg _)
            · exact_mod_cast c
          · rintro ⟨b, _, hc⟩
            exact ⟨by simp, b, by exact_mod_cast hc⟩
        · intro hh
          rw [h.2 hh]
          simp [signedValue, h45, h43]

theorem digitsVal_small (s : GoString) (h : s.all isDigit = true) (hl : s.length < 19) :
    digitsVal s 0 < 2 ^ 63 := by
  have h1 := digitsVal_lt s 0 h
  have h2 : 10 ^ s.length ≤ 10 ^ 18 := Nat.pow_le_pow_right (by norm_num) (by omega)
  have h3 : (10 : Nat) ^ 18 < 2 ^ 63 := by norm_num
  omega

theorem Atoi_spec (s : GoString) :
    ((Atoi s).2 = none ↔ (isSignedDecimal s = true ∧ inIntRange (signedValue s))) ∧
    ((Atoi s).2 = none → (Atoi s).1 = signedValue s) := by
  cases s with
  | nil => exact ParseInt_spec []
  | cons c cs =>
    by_cases hl : (c :: cs).length < 19
    · have hl2 : cs.length < 19 := by simp only [List.length_cons] at hl; omega
      by_cases hs : c = 45 ∨ c = 43
      · simp only [Atoi, hl, if_true, hs, true_and, atoiFastLoop_eq]
        have hs2 : c = 43 ∨ c = 45 := hs.symm
        cases cs with
        | nil => simp [isSignedDecimal, hs2]
        | cons d ds =>
          by_cases hd : (d :: ds).all isDigit = true
          · have hb := digitsVal_small (d :: ds) hd hl2
            have hlen : ¬ ((d :: ds).length < 1) := by simp
            simp only [hlen, if_false, hd, if_true, isSignedDecimal, hs2, List.isEmpty_cons,
              Bool.not_false, Bool.true_and, signedValue, inIntRange, true_iff, true_and,
              true_implies]
            by_cases h45 : c = 45
            · simp only [h45, if_true, and_true]
              omega
            · have h43 : c = 43 := by tauto
              subst h43
              simp only [h45, if_false, if_true, and_true]
              omega
          · have hlen : ¬ ((d :: ds).length < 1) := by simp
            simp only [hlen, if_false, hd, isSignedDecimal, hs2, if_true, List.isEmpty_cons,
              Bool.not_false, Bool.true_and]
            simp
      · have h45 : ¬ c = 45 := fun h => hs (Or.inl h)
        have h43 : ¬ c = 43 := fun h => hs (Or.inr h)
        have hs2 : ¬ (c = 43 ∨ c = 45) := fun h => hs h.symm
        simp only [Atoi, hl, if_true, hs, false_and, if_false, atoiFastLoop_eq]
        by_cases hd : (c :: cs).all isDigit = true
        · have hb := digitsVal_small (c :: cs) hd hl
          simp only [hd, if_true, isSignedDecimal, hs2, if_false, signedValue, h45, h43,
            inIntRange, true_iff, true_and, true_implies, and_true]
          refine ⟨by simp, ?_, ?_⟩ <;> omega
        · simp only [hd, isSignedDecimal, hs2, if_false]
          simp
    · simp only [Atoi, hl, if_false]
      exact ParseInt_spec (c :: cs)

/-! ## The handler, path by path -/

theorem IsValid_eq (v : GoString) :
    ConvertRequest.IsValid ⟨v⟩ = some (decide (4 ≤ v.length ∧ (Atoi (v.drop 3)).2 = none)) := by
  by_cases hl : v.length < 4
  · have : ¬ 4 ≤ v.length := by omega
    simp [ConvertRequest.IsValid, hl, this]
  · have h4 : 4 ≤ v.length := by omega
    have h3 : 3 ≤ v.length := by omega
    simp only [ConvertRequest.IsValid, hl, if_false, sliceFrom, h3, if_true, h4, true_and]
    by_cases hp : (Atoi (List.drop 3 v)).2 = none
    · simp [hp]
    · simp [hp]

theorem ServeHTTP_ofValue (h : convertHandler) (v : GoString) :
    ServeHTTP h ResponseWriter.fresh (Request.ofValue v) = some
      (if v.length < 4 ∨ (Atoi (v.drop 3)).2 ≠ none then
        errorResponse (str "Invalid format: " ++ v)
      else
        match h.currencies.get? (v.take 3) with
        | none => errorResponse (str "Unknown currency: " ++ v.take 3)
        | some currency =>
          answerResponse (F64.floor (conversion h.currencies currency (Atoi (v.drop 3)).1)).toInt)
    := by
  simp only [ServeHTTP, Request.ofValue, IsValid_eq]
  by_cases hl : v.length < 4
  · have : ¬ 4 ≤ v.length := by omega
    simp [hl, this, returnError, errorResponse, ResponseWriter.fresh, StatusBadRequest]
  · have h4 : 4 ≤ v.length := by omega
    have h3 : 3 ≤ v.length := by omega
    by_cases hp : (Atoi (List.drop 3 v)).2 = none
    · rcases hk : h.currencies.get? (List.take 3 v) with _ | r
      · simp [hl, h4, hp, hk, sliceTo, h3, returnError, errorResponse, ResponseWriter.fresh,
          StatusBadRequest]
      · have hg : h.currencies.get (List.take 3 v) = r := by
          simp only [RateTable.get?] at hk
          simp [RateTable.get, hk]
        simp [hl, h4, hp, hk, hg, sliceTo, sliceFrom, h3, answerResponse, ResponseWriter.fresh,
          StatusOK, conversion]
    · simp [hl, h4, hp, returnError, errorResponse, ResponseWriter.fresh, StatusBadRequest]

theorem ServeHTTP_decodeError (h : convertHandler) :
    ServeHTTP h ResponseWriter.fresh ⟨none⟩ =
      some (errorResponse (str "Failed to decode data")) := by
  simp [ServeHTTP, returnError, errorResponse, ResponseWriter.fresh, StatusBadRequest]

/-! ## The conversion -/

theorem toInt_floor (x : F64) (h : x.fitsInt) : (F64.floor x).toInt = ⌊x.toRat⌋ := by
  obtain ⟨hf, hlo, hhi⟩ := h
  cases x with
  | nan => simp [F64.isFinite] at hf
  | inf b => simp [F64.isFinite] at hf
  | zero b => simp [F64.floor, F64.toInt, F64.toRat]
  | fin q =>
    simp only [F64.toRat] at hlo hhi
    by_cases h0 : ⌊q⌋ = 0
    · simp [F64.floor, h0, F64.toInt, F64.toRat]
    · simp only [F64.floor, h0, if_false, F64.toInt, F64.toRat]
      have ht : truncate ((⌊q⌋ : Int) : ℚ) = ⌊q⌋ := by
        unfold truncate
        have e1 : -((⌊q⌋ : Int) : ℚ) = ((-⌊q⌋ : Int) : ℚ) := by push_cast; ring
        rw [e1, Int.floor_intCast, Int.floor_intCast]
        simp
      rw [ht]
      exact if_pos ⟨hlo, hhi⟩

theorem str_JPY : str "JPY" = [74, 80, 89] := by decide
theorem str_USD : str "USD" = [85, 83, 68] := by decide
theorem str_EUR : str "EUR" = [69, 85, 82] := by decide
theorem str_BRL : str "BRL" = [66, 82, 76] := by decide
theorem str_AUD : str "AUD" = [65, 85, 68] := by decide

theorem ofRat_JPY : F64.ofRat 100 = F64.fin 100 := by decide!
theorem ofRat_USD :
    F64.ofRat (82 / 100) = F64.fin (7385903388887613 / 9007199254740992) := by decide!
theorem ofRat_EUR :
    F64.ofRat (74 / 100) = F64.fin (3332663724254167 / 4503599627370496) := by decide!
theorem ofRat_BRL :
    F64.ofRat (396 / 100) = F64.fin (4458563631096791 / 1125899906842624) := by decide!
theorem ofRat_AUD :
    F64.ofRat (109 / 100) = F64.fin (4908923593833841 / 4503599627370496) := by decide!

theorem currencies_get?_cases (C : GoString) (rate : F64)
    (h : currencies.get? C = some rate) :
    (C = str "JPY" ∧ rate = F64.ofRat 100) ∨ (C = str "USD" ∧ rate = F64.ofRat (82 / 100)) ∨
    (C = str "EUR" ∧ rate = F64.ofRat (74 / 100)) ∨
    (C = str "BRL" ∧ rate = F64.ofRat (396 / 100)) ∨
    (C = str "AUD" ∧ rate = F64.ofRat (109 / 100)) := by
  simp only [RateTable.get?, currencies, List.lookup_cons, List.lookup_nil] at h
  by_cases h1 : C = str "JPY"
  · simp only [h1, beq_self_eq_true] at h
    exact Or.inl ⟨h1, (Option.some.inj h).symm⟩
  by_cases h2 : C = str "USD"
  · simp only [h2, beq_self_eq_true, str_JPY, str_USD] at h
    exact Or.inr (Or.inl ⟨h2, (Option.some.inj h).symm⟩)
  by_cases h3 : C = str "EUR"
  · simp only [h3, beq_self_eq_true, str_JPY, str_USD, str_EUR] at h
    exact Or.inr (Or.inr (Or.inl ⟨h3, (Option.some.inj h).symm⟩))
  by_cases h4 : C = str "BRL"
  · simp only [h4, beq_self_eq_true, str_JPY, str_USD, str_EUR, str_BRL] at h
    exact Or.inr (Or.inr (Or.inr (Or.inl ⟨h4, (Option.some.inj h).symm⟩)))
  by_cases h5 : C = str "AUD"
  · simp only [h5, beq_self_eq_true, str_JPY, str_USD, str_EUR, str_BRL, str_AUD] at h
    exact Or.inr (Or.inr (Or.inr (Or.inr ⟨h5, (Option.some.inj h).symm⟩)))
  have e1 : (C == str "JPY") = false := beq_eq_false_iff_ne.mpr h1
  have e2 : (C == str "USD") = false := beq_eq_false_iff_ne.mpr h2
  have e3 : (C == str "EUR") = false := beq_eq_false_iff_ne.mpr h3
  have e4 : (C == str "BRL") = false := beq_eq_false_iff_ne.mpr h4
  have e5 : (C == str "AUD") = false := beq_eq_false_iff_ne.mpr h5
  simp only [e1, e2, e3, e4, e5] at h
  exact absurd h (by simp)

theorem currencies_key_length (C : GoString) (rate : F64)
    (h : currencies.get? C = some rate) : C.length = 3 := by
  rcases currencies_get?_cases C rate h with h | h | h | h | h <;>
    · rw [h.1]
      decide

theorem currencies_get_JPY : currencies.get (str "JPY") = F64.fin 100 := by
  simp [RateTable.get, currencies, List.lookup_cons, ofRat_JPY]

theorem Atoi_nil : (Atoi []).2 ≠ none := by decide

theorem ServeHTTP_code_amount (C : GoString) (rate : F64) (s : GoString) (N : Int)
    (hC : currencies.get? C = some rate) (hs : Atoi s = (N, none)) :
    ServeHTTP ⟨currencies⟩ ResponseWriter.fresh (Request.ofValue (C ++ s)) = some
      (answerResponse (F64.floor (F64.mul (F64.div (F64.fin 100) rate) (F64.ofInt N))).toInt)
    := by
  have hlen := currencies_key_length C rate hC
  have hne : s ≠ [] := by
    intro h
    subst h
    exact Atoi_nil (by rw [hs])
  have hpos : 0 < s.length := List.length_pos.mpr hne
  have hd : (C ++ s).drop 3 = s := by
    rw [← hlen]
    exact List.drop_left C s
  have ht : (C ++ s).take 3 = C := by
    rw [← hlen]
    exact List.take_left C s
  have hl : ¬ ((C ++ s).length < 4) := by
    rw [List.length_append]
    omega
  rw [ServeHTTP_ofValue]
  simp only [hd, ht, hs, hl, hC, conversion, currencies_get_JPY, ne_eq, not_true_eq_false,
    or_self, if_false]

/-! ## Rounding to binary64 -/

theorem bitLenAux_spec (fuel n : Nat) (hf : n ≤ fuel) (hn : n ≠ 0) :
    2 ^ (bitLenAux fuel n - 1) ≤ n ∧ n < 2 ^ bitLenAux fuel n ∧ 1 ≤ bitLenAux fuel n := by
  induction fuel generalizing n with
  | zero => omega
  | succ f ih =>
    simp only [bitLenAux, hn, if_false, Nat.add_sub_cancel]
    by_cases h2 : n / 2 = 0
    · have h1 : n = 1 := by omega
      subst h1
      cases f <;> simp [bitLenAux]
    · obtain ⟨a, b, c⟩ := ih (n / 2) (by omega) h2
      refine ⟨?_, ?_, by omega⟩
      · have e : bitLenAux f (n / 2) = (bitLenAux f (n / 2) - 1) + 1 := by omega
        rw [e, pow_succ]
        omega
      · rw [pow_succ]
        omega

theorem bitLen_spec (n : Nat) (hn : n ≠ 0) :
    2 ^ (bitLen n - 1) ≤ n ∧ n < 2 ^ bitLen n ∧ 1 ≤ bitLen n :=
  bitLenAux_spec n n le_rfl hn

theorem pow2_eq_zpow (e : Int) : pow2 e = (2 : ℚ) ^ e := by
  unfold pow2
  split_ifs with h
  · obtain ⟨k, rfl⟩ := Int.eq_ofNat_of_zero_le h
    simp
  · have h' : 0 ≤ -e := by omega
    obtain ⟨k, hk⟩ := Int.eq_ofNat_of_zero_le h'
    have he : e = -(k : Int) := by omega
    subst he
    simp

theorem pow2_pos (e : Int) : 0 < pow2 e := by
  rw [pow2_eq_zpow]
  positivity

theorem roundHalfEven_intCast (m : Int) : roundHalfEven (m : ℚ) = m := by
  simp [roundHalfEven]

theorem roundHalfEven_nonneg (q : ℚ) (h : 0 ≤ q) : 0 ≤ roundHalfEven q := by
  have hf : 0 ≤ ⌊q⌋ := Int.floor_nonneg.mpr h
  unfold roundHalfEven
  simp only
  split_ifs <;> omega

theorem roundHalfEven_le (q : ℚ) : (roundHalfEven q : ℚ) ≤ q + 1 / 2 := by
  have h1 : (⌊q⌋ : ℚ) ≤ q := Int.floor_le q
  unfold roundHalfEven
  simp only
  split_ifs with a b c
  · linarith
  · push_cast
    linarith
  · linarith
  · push_cast
    have : q - ⌊q⌋ = 1 / 2 := le_antisymm (not_lt.mp b) (not_lt.mp a)
    linarith

theorem roundHalfEven_ge (q : ℚ) : q - 1 / 2 ≤ (roundHalfEven q : ℚ) := by
  have h1 : q < (⌊q⌋ : ℚ) + 1 := Int.lt_floor_add_one q
  unfold roundHalfEven
  simp only
  split_ifs with a b c
  · linarith
  · push_cast
    linarith
  · have : q - ⌊q⌋ = 1 / 2 := le_antisymm (not_lt.mp b) (not_lt.mp a)
    linarith
  · push_cast
    linarith

theorem roundMag_eq (q : ℚ) : roundMag q = (roundHalfEven (q / ulp q) : ℚ) * ulp q := rfl

theorem ulp_pos (q : ℚ) : 0 < ulp q := pow2_pos _

theorem roundMag_nonneg (q : ℚ) (h : 0 ≤ q) : 0 ≤ roundMag q := by
  rw [roundMag_eq]
  have h1 : 0 ≤ q / ulp q := div_nonneg h (ulp_pos q).le
  have h2 := roundHalfEven_nonneg _ h1
  have h3 : (0 : ℚ) ≤ (roundHalfEven (q / ulp q) : ℚ) := by exact_mod_cast h2
  exact mul_nonneg h3 (ulp_pos q).le

theorem roundMag_exact (q : ℚ) (m : Int) (h : q / ulp q = m) : roundMag q = q := by
  rw [roundMag_eq, h, roundHalfEven_intCast, ← h]
  exact div_mul_cancel₀ q (ulp_pos q).ne.symm

theorem floorExp_natCast (k : Nat) (hk : k ≠ 0) : floorExp (k : ℚ) = (bitLen k : Int) - 1 := by
  obtain ⟨a, b, c⟩ := bitLen_spec k hk
  have h1 : bitLen 1 = 1 := by decide
  have hle : pow2 ((bitLen k : Int) - 1) ≤ (k : ℚ) := by
    have e : ((bitLen k : Int) - 1) = ((bitLen k - 1 : Nat) : Int) := by omega
    rw [pow2_eq_zpow, e, zpow_natCast]
    exact_mod_cast a
  simp only [floorExp, Rat.num_natCast, Int.natAbs_ofNat, Rat.den_natCast, h1, Nat.cast_one,
    hle, if_true]

theorem roundMag_natCast (k : Nat) (hk : k ≠ 0) (hb : k ≤ 2 ^ 53) :
    roundMag (k : ℚ) = k := by
  obtain ⟨a, b, c⟩ := bitLen_spec k hk
  have hL : bitLen k ≤ 54 := by
    by_contra hcon
    have h55 : 2 ^ 54 ≤ 2 ^ (bitLen k - 1) := Nat.pow_le_pow_right (by norm_num) (by omega)
    have : (2 : Nat) ^ 53 < 2 ^ 54 := by norm_num
    omega
  have hu : ulp (k : ℚ) = (2 : ℚ) ^ ((bitLen k : Int) - 53) := by
    have hm : max ((bitLen k : Int) - 1) (-1022) = (bitLen k : Int) - 1 := by omega
    rw [ulp, floorExp_natCast k hk, hm, pow2_eq_zpow]
    congr 1
    omega
  by_cases h54 : bitLen k = 54
  · have hk2 : k = 2 ^ 53 := by
      rw [h54] at a
      have : (2 : Nat) ^ (54 - 1) = 2 ^ 53 := by norm_num
      omega
    apply roundMag_exact _ ((2 : Int) ^ 52)
    rw [hu, h54, hk2]
    norm_num
  · have hle : bitLen k ≤ 53 := by omega
    apply roundMag_exact _ ((k : Int) * 2 ^ (53 - bitLen k))
    rw [hu]
    have e : ((bitLen k : Int) - 53) = -((53 - bitLen k : Nat) : Int) := by omega
    rw [e, zpow_neg, zpow_natCast]
    push_cast
    field_simp

theorem round_intCast (n : Int) (hn : n ≠ 0) (hb : |n| ≤ 2 ^ 53) (neg : Bool) :
    F64.round (n : ℚ) neg = F64.fin (n : ℚ) := by
  have hq : (n : ℚ) ≠ 0 := by exact_mod_cast hn
  have habs : |(n : ℚ)| = ((n.natAbs : Nat) : ℚ) := by
    rw [← Int.cast_abs, Int.abs_eq_natAbs, Int.cast_natCast]
  have hk : n.natAbs ≠ 0 := Int.natAbs_ne_zero.mpr hn
  have hkb : n.natAbs ≤ 2 ^ 53 := by
    have : ((n.natAbs : Nat) : Int) ≤ 2 ^ 53 := by
      rw [← Int.abs_eq_natAbs]
      exact hb
    exact_mod_cast this
  have hr : roundMag |(n : ℚ)| = |(n : ℚ)| := by
    rw [habs]
    exact roundMag_natCast _ hk hkb
  have hlt : ¬ pow2 1024 ≤ |(n : ℚ)| := by
    rw [habs, pow2_eq_zpow, not_le]
    have h1 : ((n.natAbs : Nat) : ℚ) ≤ 2 ^ 53 := by exact_mod_cast hkb
    have h2 : (2 : ℚ) ^ 53 < (2 : ℚ) ^ (1024 : Int) := by norm_num
    linarith
  have hne : ¬ |(n : ℚ)| = 0 := by simpa using hq
  simp only [F64.round, hq, if_false, hr, hlt, hne]
  by_cases hneg : (n : ℚ) < 0
  · simp only [hneg, if_true, abs_of_neg hneg, neg_neg]
  · simp only [hneg, if_false, abs_of_nonneg (not_lt.mp hneg)]

theorem floorExp_le (q : ℚ) (hq : 0 < q) : pow2 (floorExp q) ≤ q := by
  unfold floorExp
  simp only
  split_ifs with h
  · exact h
  · have hnum : 0 < q.num := Rat.num_pos.mpr hq
    have hn0 : q.num.natAbs ≠ 0 := Int.natAbs_ne_zero.mpr hnum.ne.symm
    obtain ⟨a, _, c⟩ := bitLen_spec q.num.natAbs hn0
    obtain ⟨_, b', _⟩ := bitLen_spec q.den q.den_nz
    have e : ((bitLen q.num.natAbs : Int) - (bitLen q.den : Int) - 1)
        = ((bitLen q.num.natAbs - 1 : Nat) : Int) - ((bitLen q.den : Nat) : Int) := by omega
    rw [pow2_eq_zpow, e, zpow_sub₀ (by norm_num : (2 : ℚ) ≠ 0), zpow_natCast, zpow_natCast]
    have hden : (0 : ℚ) < q.den := by exact_mod_cast q.den_pos
    have h1 : ((2 : ℚ) ^ (bitLen q.num.natAbs - 1)) ≤ (q.num.natAbs : ℚ) := by exact_mod_cast a
    have h2 : (q.den : ℚ) ≤ (2 : ℚ) ^ bitLen q.den := by exact_mod_cast b'.le
    have h3 : ((q.num.natAbs : Nat) : ℚ) = (q.num : ℚ) := by
      have : ((q.num.natAbs : Nat) : Int) = q.num := Int.natAbs_of_nonneg hnum.le
      rw [← Int.cast_natCast, this]
    have h4 : q = (q.num : ℚ) / (q.den : ℚ) := (Rat.num_div_den q).symm
    rw [h3] at h1
    calc (2 : ℚ) ^ (bitLen q.num.natAbs - 1) / (2 : ℚ) ^ bitLen q.den
        ≤ (q.num : ℚ) / (2 : ℚ) ^ bitLen q.den :=
          div_le_div_of_nonneg_right h1 (by positivity)
      _ ≤ (q.num : ℚ) / (q.den : ℚ) :=
          div_le_div_of_nonneg_left (by exact_mod_cast hnum.le) hden h2
      _ = q := h4.symm

theorem ulp_le (q : ℚ) (hq : 0 < q) : ulp q ≤ max q 1 := by
  unfold ulp
  by_cases h : -1022 ≤ floorExp q
  · have hm : max (floorExp q) (-1022) = floorExp q := max_eq_left h
    rw [hm]
    have h1 : pow2 (floorExp q - 52) ≤ pow2 (floorExp q) := by
      rw [pow2_eq_zpow, pow2_eq_zpow]
      exact zpow_le_zpow_right₀ (by norm_num) (by omega)
    exact le_trans h1 (le_trans (floorExp_le q hq) (le_max_left _ _))
  · have hm : max (floorExp q) (-1022) = -1022 := max_eq_right (by omega)
    rw [hm, pow2_eq_zpow]
    have h1 : (2 : ℚ) ^ ((-1022 : Int) - 52) ≤ (2 : ℚ) ^ (0 : Int) :=
      zpow_le_zpow_right₀ (by norm_num) (by norm_num)
    rw [zpow_zero] at h1
    exact le_trans h1 (le_max_right _ _)

theorem roundMag_le (q : ℚ) (hq : 0 < q) : roundMag q ≤ q + max q 1 := by
  rw [roundMag_eq]
  have hu := ulp_pos q
  have h1 := roundHalfEven_le (q / ulp q)
  have h2 : (roundHalfEven (q / ulp q) : ℚ) * ulp q ≤ (q / ulp q + 1 / 2) * ulp q :=
    mul_le_mul_of_nonneg_right h1 hu.le
  have h3 : (q / ulp q + 1 / 2) * ulp q = q + ulp q / 2 := by
    field_simp
    ring
  have h4 := ulp_le q hq
  have h5 : 0 < max q 1 := lt_of_lt_of_le one_pos (le_max_right _ _)
  linarith

/-- The value of a rounding result is bounded by that of the exact result. -/
theorem round_abs_le (q : ℚ) (neg : Bool) : |(F64.round q neg).toRat| ≤ |q| + max |q| 1 := by
  have hb : 0 ≤ |q| + max |q| 1 :=
    add_nonneg (abs_nonneg q) (le_trans (abs_nonneg q) (le_max_left _ _))
  unfold F64.round
  simp only
  split_ifs with h0 h1 h2 h3
  · simpa [F64.toRat] using hb
  · simpa [F64.toRat] using hb
  · simpa [F64.toRat] using hb
  · simp only [F64.toRat, abs_neg]
    rw [abs_of_nonneg (roundMag_nonneg _ (abs_nonneg q))]
    exact roundMag_le _ (abs_pos.mpr h0)
  · simp only [F64.toRat]
    rw [abs_of_nonneg (roundMag_nonneg _ (abs_nonneg q))]
    exact roundMag_le _ (abs_pos.mpr h0)

theorem round_isFinite (q : ℚ) (neg : Bool) (h : |q| ≤ pow2 1000) :
    (F64.round q neg).isFinite = true := by
  unfold F64.round
  simp only
  split_ifs with h0 h1 h2 h3
  · rfl
  · exfalso
    have h4 := roundMag_le _ (abs_pos.mpr h0)
    have h5 : max |q| 1 ≤ pow2 1000 := by
      apply max_le h
      rw [pow2_eq_zpow]
      exact one_le_zpow₀ (by norm_num) (by norm_num)
    have h6 : pow2 1000 + pow2 1000 < pow2 1024 := by
      rw [pow2_eq_zpow, pow2_eq_zpow]
      norm_num
    linarith
  · rfl
  · rfl
  · rfl

theorem round_sign_irrelevant (q : ℚ) (hq : q ≠ 0) (a b : Bool) :
    F64.round q a = F64.round q b := by
  simp [F64.round, hq]

theorem round_toRat_nonneg (q : ℚ) (neg : Bool) (h : 0 ≤ q) : 0 ≤ (F64.round q neg).toRat := by
  unfold F64.round
  simp only
  have hn : ¬ q < 0 := not_lt.mpr h
  split_ifs <;> simp only [F64.toRat, le_refl]
  exact roundMag_nonneg _ (abs_nonneg q)

theorem round_toRat_nonpos (q : ℚ) (neg : Bool) (h : q ≤ 0) : (F64.round q neg).toRat ≤ 0 := by
  unfold F64.round
  simp only
  split_ifs with h0 h1 h2 h3 <;> simp only [F64.toRat, le_refl]
  · exact neg_nonpos.mpr (roundMag_nonneg _ (abs_nonneg q))
  · exact absurd (lt_of_le_of_ne h h0) h3

/-! ## The conversion under the default table -/

theorem div_JPY : F64.div (F64.fin 100) (F64.ofRat 100) = F64.fin 1 := by decide!
theorem div_USD : F64.div (F64.fin 100) (F64.ofRat (82 / 100)) =
    F64.fin (8581554168007805 / 70368744177664) := by decide!
theorem div_EUR : F64.div (F64.fin 100) (F64.ofRat (74 / 100)) =
    F64.fin (4754644876869189 / 35184372088832) := by decide!
theorem div_BRL : F64.div (F64.fin 100) (F64.ofRat (396 / 100)) =
    F64.fin (3553976978669899 / 140737488355328) := by decide!
theorem div_AUD : F64.div (F64.fin 100) (F64.ofRat (109 / 100)) =
    F64.fin (806981011211743 / 8796093022208) := by decide!

/-- For every entry of the default table the quotient `rate(JPY) / rate(C)` is a finite
double between 1 and 136. -/
theorem rate_factor (C : GoString) (rate : F64) (h : currencies.get? C = some rate) :
    ∃ f : ℚ, 1 ≤ f ∧ f ≤ 136 ∧ F64.div (F64.fin 100) rate = F64.fin f := by
  rcases currencies_get?_cases C rate h with h | h | h | h | h
  · exact ⟨1, by norm_num, by norm_num, by rw [h.2]; exact div_JPY⟩
  · exact ⟨8581554168007805 / 70368744177664, by norm_num, by norm_num,
      by rw [h.2]; exact div_USD⟩
  · exact ⟨4754644876869189 / 35184372088832, by norm_num, by norm_num,
      by rw [h.2]; exact div_EUR⟩
  · exact ⟨3553976978669899 / 140737488355328, by norm_num, by norm_num,
      by rw [h.2]; exact div_BRL⟩
  · exact ⟨806981011211743 / 8796093022208, by norm_num, by norm_num,
      by rw [h.2]; exact div_AUD⟩

theorem ofInt_facts (N : Int) (hN : inIntRange N) :
    (F64.ofInt N).isFinite = true ∧ |(F64.ofInt N).toRat| ≤ 2 ^ 64 ∧
    (0 ≤ N → 0 ≤ (F64.ofInt N).toRat) ∧ (N ≤ 0 → (F64.ofInt N).toRat ≤ 0) := by
  obtain ⟨lo, hi⟩ := hN
  have habs : |(N : ℚ)| ≤ 2 ^ 63 := by
    rw [abs_le]
    constructor
    · have : ((-(2 ^ 63) : Int) : ℚ) ≤ (N : ℚ) := Int.cast_le.mpr lo
      push_cast at this
      linarith
    · have : (N : ℚ) ≤ ((2 ^ 63 : Int) : ℚ) := Int.cast_le.mpr hi.le
      push_cast at this
      linarith
  refine ⟨?_, ?_, ?_, ?_⟩
  · apply round_isFinite
    rw [pow2_eq_zpow]
    have : (2 : ℚ) ^ 63 ≤ (2 : ℚ) ^ (1000 : Int) := by norm_num
    linarith
  · have h1 := round_abs_le (N : ℚ) false
    have h2 : max |(N : ℚ)| 1 ≤ 2 ^ 63 := max_le habs (by norm_num)
    have h3 : (2 : ℚ) ^ 63 + 2 ^ 63 = 2 ^ 64 := by norm_num
    unfold F64.ofInt
    linarith
  · intro h
    exact round_toRat_nonneg _ _ (by exact_mod_cast h)
  · intro h
    exact round_toRat_nonpos _ _ (by exact_mod_cast h)

theorem mul_fin_facts (f : ℚ) (hf1 : 1 ≤ f) (hf2 : f ≤ 136) (y : F64)
    (hy : y.isFinite = true) (hb : |y.toRat| ≤ 2 ^ 64) :
    (F64.mul (F64.fin f) y).isFinite = true ∧
    (0 ≤ y.toRat → 0 ≤ (F64.mul (F64.fin f) y).toRat) ∧
    (y.toRat ≤ 0 → (F64.mul (F64.fin f) y).toRat ≤ 0) := by
  have hf0 : 0 < f := lt_of_lt_of_le one_pos hf1
  cases y with
  | nan => simp [F64.isFinite] at hy
  | inf b => simp [F64.isFinite] at hy
  | zero b => simp [F64.mul, F64.isFinite, F64.toRat]
  | fin x =>
    simp only [F64.toRat] at hb
    simp only [F64.mul, F64.toRat]
    refine ⟨?_, ?_, ?_⟩
    · apply round_isFinite
      rw [abs_mul, abs_of_pos hf0, pow2_eq_zpow]
      have h1 : f * |x| ≤ 136 * 2 ^ 64 := mul_le_mul hf2 hb (abs_nonneg x) (by norm_num)
      have h2 : (136 : ℚ) * 2 ^ 64 ≤ (2 : ℚ) ^ (1000 : Int) := by norm_num
      linarith
    · intro h
      exact round_toRat_nonneg _ _ (mul_nonneg hf0.le h)
    · intro h
      exact round_toRat_nonpos _ _ (mul_nonpos_of_nonneg_of_nonpos hf0.le h)

/-- Under the default table the conversion of an `int` amount is a finite double of the
sign of the amount. -/
theorem conversion_facts (C : GoString) (rate : F64) (N : Int)
    (hC : currencies.get? C = some rate) (hN : inIntRange N) :
    (F64.mul (F64.div (F64.fin 100) rate) (F64.ofInt N)).isFinite = true ∧
    (0 ≤ N → 0 ≤ (F64.mul (F64.div (F64.fin 100) rate) (F64.ofInt N)).toRat) ∧
    (N ≤ 0 → (F64.mul (F64.div (F64.fin 100) rate) (F64.ofInt N)).toRat ≤ 0) := by
  obtain ⟨f, hf1, hf2, hf⟩ := rate_factor C rate hC
  obtain ⟨a, b, c, d⟩ := ofInt_facts N hN
  obtain ⟨p, q, r⟩ := mul_fin_facts f hf1 hf2 (F64.ofInt N) a b
  rw [hf]
  exact ⟨p, fun h => q (c h), fun h => r (d h)⟩

theorem Atoi_inIntRange (s : GoString) (N : Int) (hs : Atoi s = (N, none)) : inIntRange N := by
  obtain ⟨h1, h2⟩ := Atoi_spec s
  have he : (Atoi s).2 = none := by rw [hs]
  have hv := h2 he
  rw [hs] at hv
  simp only at hv
  rw [hv]
  exact (h1.mp he).2

/-! ## Validation and the error paths -/

/-- Counterexample to C2 as stated: the value `USD9223372036854775808` has length at least
4 and its suffix is an optional sign followed by at least one ASCII digit and nothing else,
yet `IsValid` returns false: the suffix denotes `2^63`, which `strconv.Atoi` rejects as out
of range. -/
theorem IsValid_syntax_counterexample :
    4 ≤ (str "USD9223372036854775808").length ∧
    isSignedDecimal ((str "USD9223372036854775808").drop 3) = true ∧
    signedValue ((str "USD9223372036854775808").drop 3) = 2 ^ 63 ∧
    ConvertRequest.IsValid ⟨str "USD9223372036854775808"⟩ = some false ∧
    ¬ (ConvertRequest.IsValid ⟨str "USD9223372036854775808"⟩ = some true ↔
      (4 ≤ (str "USD9223372036854775808").length ∧
        isSignedDecimal ((str "USD9223372036854775808").drop 3) = true)) := by
  refine ⟨by decide, by decide, by decide, by decide, by decide⟩

/-- C2, amended: `ConvertRequest.IsValid` returns true for a value `v` exactly when
`len(v) >= 4` and `v[3:]` is an optional single leading `'+'` or `'-'` followed by at least
one ASCII digit and nothing else, denoting an integer in the range of a 64-bit `int`
(`-2^63` to `2^63 - 1`); in every other case it returns false (it never panics). These
are exactly the values on which `strconv.Atoi` returns no error for `v[3:]`. -/
theorem IsValid_iff (v : GoString) :
    (ConvertRequest.IsValid ⟨v⟩ = some true ↔
      (4 ≤ v.length ∧ isSignedDecimal (v.drop 3) = true ∧
        inIntRange (signedValue (v.drop 3)))) ∧
    (ConvertRequest.IsValid ⟨v⟩ = some false ↔
      ¬ (4 ≤ v.length ∧ isSignedDecimal (v.drop 3) = true ∧
        inIntRange (signedValue (v.drop 3)))) ∧
    (ConvertRequest.IsValid ⟨v⟩ = some true ↔ (4 ≤ v.length ∧ (Atoi (v.drop 3)).2 = none)) ∧
    (ConvertRequest.IsValid ⟨v⟩ = some false ↔ ¬ (4 ≤ v.length ∧ (Atoi (v.drop 3)).2 = none)) ∧
    ((Atoi (v.drop 3)).2 = none ↔
      (isSignedDecimal (v.drop 3) = true ∧ inIntRange (signedValue (v.drop 3)))) := by
  have hA := (Atoi_spec (v.drop 3)).1
  refine ⟨?_, ?_, ?_, ?_, hA⟩
  · rw [IsValid_eq, ← hA]
    simp
  · rw [IsValid_eq, ← hA]
    simp
  · rw [IsValid_eq]
    simp
  · rw [IsValid_eq]
    simp

/-- C3: a value of length at least 4 whose suffix parses but whose first three bytes are
not a key of the rate table (compared exactly, no case folding) gets the 400 response
with message `"Unknown currency: "` followed by `v[:3]`, which is never an
`"Invalid format: ..."` message; and a value that fails the shape check gets the
`"Invalid format: "` response whatever its prefix. -/
theorem unknown_currency_after_shape (h : convertHandler) (v : GoString) :
    (4 ≤ v.length → (Atoi (v.drop 3)).2 = none → h.currencies.get? (v.take 3) = none →
      ServeHTTP h ResponseWriter.fresh (Request.ofValue v) =
        some (errorResponse (str "Unknown currency: " ++ v.take 3)) ∧
      ∀ x : GoString, ServeHTTP h ResponseWriter.fresh (Request.ofValue v) ≠
        some (errorResponse (str "Invalid format: " ++ x))) ∧
    (ConvertRequest.IsValid ⟨v⟩ = some false →
      ServeHTTP h ResponseWriter.fresh (Request.ofValue v) =
        some (errorResponse (str "Invalid format: " ++ v))) := by
  constructor
  · intro h4 hp hk
    have hl : ¬ v.length < 4 := by omega
    have e : ServeHTTP h ResponseWriter.fresh (Request.ofValue v) =
        some (errorResponse (str "Unknown currency: " ++ v.take 3)) := by
      rw [ServeHTTP_ofValue]
      simp [hl, hp, hk]
    refine ⟨e, ?_⟩
    intro x hx
    rw [e] at hx
    have h1 : str "Unknown currency: " ++ List.take 3 v = str "Invalid format: " ++ x := by
      simpa [errorResponse] using hx
    have hU : str "Unknown currency: " = (85 : Byte) :: (str "Unknown currency: ").tail := by
      decide
    have hI : str "Invalid format: " = (73 : Byte) :: (str "Invalid format: ").tail := by
      decide
    rw [hU, hI] at h1
    simp only [List.cons_append, List.cons.injEq] at h1
    exact absurd h1.1 (by decide)
  · intro hv
    rw [IsValid_eq] at hv
    have hv2 : ¬ (4 ≤ v.length ∧ (Atoi (v.drop 3)).2 = none) := by simpa using hv
    rw [ServeHTTP_ofValue]
    have hc : v.length < 4 ∨ (Atoi (v.drop 3)).2 ≠ none := by
      by_cases hl : v.length < 4
      · exact Or.inl hl
      · exact Or.inr (fun hp => hv2 ⟨by omega, hp⟩)
    rw [if_pos hc]

/-- Witness for C3: the lower-case prefix of `usd100` is unrecognized under the default
table, and `USDabc` fails the shape check although `USD` is a known code. -/
theorem unknown_currency_after_shape_witness :
    (ServeHTTP ⟨currencies⟩ ResponseWriter.fresh (Request.ofValue (str "usd100")) =
        some (errorResponse (str "Unknown currency: " ++ (str "usd100").take 3)) ∧
      ∀ x : GoString, ServeHTTP ⟨currencies⟩ ResponseWriter.fresh
        (Request.ofValue (str "usd100")) ≠ some (errorResponse (str "Invalid format: " ++ x))) ∧
    ServeHTTP ⟨currencies⟩ ResponseWriter.fresh (Request.ofValue (str "USDabc")) =
        some (errorResponse (str "Invalid format: " ++ str "USDabc")) :=
  ⟨(unknown_currency_after_shape ⟨currencies⟩ (str "usd100")).1 (by decide) (by decide)
      (by decide),
    (unknown_currency_after_shape ⟨currencies⟩ (str "USDabc")).2 (by decide)⟩

/-- C4: every decoded value that fails the shape check (`len(v) < 4`, or `v[3:]` does not
parse) gets status 400 with error `"Bad Request"` and message `"Invalid format: "`
followed by the whole value, unmodified. -/
theorem invalid_format_response (h : convertHandler) (v : GoString)
    (hv : v.length < 4 ∨ (Atoi (v.drop 3)).2 ≠ none) :
    ServeHTTP h ResponseWriter.fresh (Request.ofValue v) =
      some ⟨some (str "application/json"), some 400,
        [Payload.error ⟨str "Bad Request", str "Invalid format: " ++ v⟩]⟩ := by
  rw [ServeHTTP_ofValue, if_pos hv]
  rfl

/-- Witness for C4: the values `US1` (too short) and `USDabc` (suffix not an integer). -/
theorem invalid_format_response_witness :
    ServeHTTP ⟨currencies⟩ ResponseWriter.fresh (Request.ofValue (str "US1")) =
      some ⟨some (str "application/json"), some 400,
        [Payload.error ⟨str "Bad Request", str "Invalid format: " ++ str "US1"⟩]⟩ ∧
    ServeHTTP ⟨currencies⟩ ResponseWriter.fresh (Request.ofValue (str "USDabc")) =
      some ⟨some (str "application/json"), some 400,
        [Payload.error ⟨str "Bad Request", str "Invalid format: " ++ str "USDabc"⟩]⟩ :=
  ⟨invalid_format_response ⟨currencies⟩ (str "US1") (Or.inl (by decide)),
    invalid_format_response ⟨currencies⟩ (str "USDabc") (Or.inr (by decide))⟩

/-- Counterexample to C5 as stated: the value `€1` has two Unicode characters, fewer than
four, yet its UTF-8 encoding has four bytes, so `IsValid` returns true and the handler
answers with the unknown-currency response, not with the invalid-format one. -/
theorem short_in_characters_counterexample :
    "€1".length < 4 ∧
    ConvertRequest.IsValid ⟨str "€1"⟩ = some true ∧
    ServeHTTP ⟨currencies⟩ ResponseWriter.fresh (Request.ofValue (str "€1")) =
      some (errorResponse (str "Unknown currency: €")) ∧
    ServeHTTP ⟨currencies⟩ ResponseWriter.fresh (Request.ofValue (str "€1")) ≠
      some (errorResponse (str "Invalid format: €1")) := by
  refine ⟨by decide, by decide, by decide, by decide⟩

/-- C5, amended: every request value of fewer than 4 bytes (the length of its UTF-8
encoding, which is what `len` counts) fails validation, whatever its content: `IsValid`
returns false and the handler answers 400 with message `"Invalid format: "` followed by
the value. -/
theorem short_in_bytes_invalid (h : convertHandler) (v : GoString) (hv : v.length < 4) :
    ConvertRequest.IsValid ⟨v⟩ = some false ∧
    ServeHTTP h ResponseWriter.fresh (Request.ofValue v) =
      some (errorResponse (str "Invalid format: " ++ v)) := by
  constructor
  · rw [IsValid_eq]
    have : ¬ 4 ≤ v.length := by omega
    simp [this]
  · rw [ServeHTTP_ofValue, if_pos (Or.inl hv)]

/-- Witness for C5, amended: the three-byte value `US1`. -/
theorem short_in_bytes_invalid_witness :
    (str "US1").length < 4 ∧
    ConvertRequest.IsValid ⟨str "US1"⟩ = some false ∧
    ServeHTTP ⟨currencies⟩ ResponseWriter.fresh (Request.ofValue (str "US1")) =
      some (errorResponse (str "Invalid format: " ++ str "US1")) :=
  ⟨by decide, short_in_bytes_invalid ⟨currencies⟩ (str "US1") (by decide)⟩

/-- C10: for every request the handler writes exactly one response, with content type
`application/json` and status 200 or 400; the status is 200, with body `{answer}`, exactly
when the body decodes, the value passes `IsValid` and its first three bytes are a key of
the table; otherwise it is 400 with error `"Bad Request"`, and a decode failure gives the
fixed message `"Failed to decode data"`. -/
theorem response_statuses (h : convertHandler) (r : Request) :
    ∃ w : ResponseWriter, ServeHTTP h ResponseWriter.fresh r = some w ∧
      w.contentType = some (str "application/json") ∧
      (w.status = some 200 ∨ w.status = some 400) ∧
      (w.status = some 200 ↔ ∃ req : ConvertRequest, r.decoded = some req ∧
        req.IsValid = some true ∧ (h.currencies.get? (req.Value.take 3)).isSome = true) ∧
      (w.status = some 200 ↔ ∃ a : Int, w.body = [Payload.convert ⟨a⟩]) ∧
      (w.status = some 400 ↔ ∃ m : GoString, w.body = [Payload.error ⟨str "Bad Request", m⟩]) ∧
      (r.decoded = none ↔ w = errorResponse (str "Failed to decode data")) := by
  rcases r with ⟨_ | ⟨⟨v⟩⟩⟩
  · refine ⟨_, ServeHTTP_decodeError h, rfl, Or.inr rfl, ?_, ?_, ?_, ?_⟩
    · simp [errorResponse]
    · simp [errorResponse]
    · simp [errorResponse]
    · simp
  · have e := ServeHTTP_ofValue h v
    simp only [Request.ofValue] at e
    have hne : ∀ x : GoString, errorResponse (str "Invalid format: " ++ x) ≠
        errorResponse (str "Failed to decode data") := by
      intro x hx
      have h1 : str "Invalid format: " ++ x = str "Failed to decode data" := by
        simpa [errorResponse] using hx
      have hI : str "Invalid format: " = (73 : Byte) :: (str "Invalid format: ").tail := by
        decide
      have hF : str "Failed to decode data" = (70 : Byte) :: (str "Failed to decode data").tail
        := by decide
      rw [hI, hF] at h1
      simp only [List.cons_append, List.cons.injEq] at h1
      exact absurd h1.1 (by decide)
    have hne2 : ∀ x : GoString, errorResponse (str "Unknown currency: " ++ x) ≠
        errorResponse (str "Failed to decode data") := by
      intro x hx
      have h1 : str "Unknown currency: " ++ x = str "Failed to decode data" := by
        simpa [errorResponse] using hx
      have hU : str "Unknown currency: " = (85 : Byte) :: (str "Unknown currency: ").tail := by
        decide
      have hF : str "Failed to decode data" = (70 : Byte) :: (str "Failed to decode data").tail
        := by decide
      rw [hU, hF] at h1
      simp only [List.cons_append, List.cons.injEq] at h1
      exact absurd h1.1 (by decide)
    by_cases hc : v.length < 4 ∨ (Atoi (v.drop 3)).2 ≠ none
    · rw [if_pos hc] at e
      have hv : ¬ (4 ≤ v.length ∧ (Atoi (v.drop 3)).2 = none) := by
        rintro ⟨a, b⟩
        rcases hc with hc | hc
        · omega
        · exact hc b
      refine ⟨_, e, rfl, Or.inr rfl, ?_, ?_, ?_, ?_⟩
      · simp [errorResponse, IsValid_eq, hv]
      · simp [errorResponse]
      · simp [errorResponse]
      · simp only [reduceCtorEq, false_iff]
        exact hne v
    · rw [if_neg hc] at e
      have hv : 4 ≤ v.length ∧ (Atoi (v.drop 3)).2 = none := by
        constructor
        · by_contra hl
          exact hc (Or.inl (by omega))
        · by_contra hp
          exact hc (Or.inr hp)
      rcases hk : h.currencies.get? (v.take 3) with _ | rate
      · rw [hk] at e
        refine ⟨_, e, rfl, Or.inr rfl, ?_, ?_, ?_, ?_⟩
        · simp [errorResponse, hk]
        · simp [errorResponse]
        · simp [errorResponse]
        · simp only [reduceCtorEq, false_iff]
          exact hne2 _
      · rw [hk] at e
        refine ⟨_, e, rfl, Or.inl rfl, ?_, ?_, ?_, ?_⟩
        · simp [answerResponse, IsValid_eq, hv, hk]
        · simp [answerResponse]
        · simp [answerResponse]
        · simp [answerResponse, errorResponse]

/-! ## The conversion path -/

/-- Counterexample to C1 as stated: `USD` is a key of the default table and the amount
`1000000000000000000` is accepted by validation, but the floor of the double-precision
product is `121951219512195121152`, which no 64-bit `int` holds, and the answer is not
that floor. -/
theorem convert_nonneg_counterexample :
    currencies.get? (str "USD") = some (F64.ofRat (82 / 100)) ∧
    ConvertRequest.IsValid ⟨str "USD1000000000000000000"⟩ = some true ∧
    Atoi (str "1000000000000000000") = (1000000000000000000, none) ∧
    ⌊(F64.mul (F64.div (F64.fin 100) (F64.ofRat (82 / 100)))
        (F64.ofInt 1000000000000000000)).toRat⌋ = 121951219512195121152 ∧
    ServeHTTP ⟨currencies⟩ ResponseWriter.fresh (Request.ofValue (str "USD1000000000000000000"))
      ≠ some (answerResponse ⌊(F64.mul (F64.div (F64.fin 100) (F64.ofRat (82 / 100)))
        (F64.ofInt 1000000000000000000)).toRat⌋) := by
  refine ⟨by decide!, by decide, by decide, by decide!, by decide!⟩

/-- C1, amended: for every code `C` of the default table, with rate `rate`, and every
amount `N >= 0` accepted by validation for which the floor of the double-precision value
`rate(JPY) / rate(C) * N` is below `2^63` (it fits the 64-bit `int` result type), the
handler on `C` followed by the text of `N` responds 200 with that floor as answer. -/
theorem convert_nonneg_amount (C : GoString) (rate : F64) (s : GoString) (N : Int)
    (hC : currencies.get? C = some rate) (hs : Atoi s = (N, none)) (hN : 0 ≤ N)
    (hfit : ⌊(F64.mul (F64.div (F64.fin 100) rate) (F64.ofInt N)).toRat⌋ < 2 ^ 63) :
    currencies.get? (str "JPY") = some (F64.fin 100) ∧
    ServeHTTP ⟨currencies⟩ ResponseWriter.fresh (Request.ofValue (C ++ s)) =
      some ⟨some (str "application/json"), some 200, [Payload.convert
        ⟨⌊(F64.mul (F64.div (F64.fin 100) rate) (F64.ofInt N)).toRat⌋⟩]⟩ := by
  obtain ⟨hfin, hpos, _⟩ := conversion_facts C rate N hC (Atoi_inIntRange s N hs)
  have h0 : (0 : Int) ≤ ⌊(F64.mul (F64.div (F64.fin 100) rate) (F64.ofInt N)).toRat⌋ :=
    Int.floor_nonneg.mpr (hpos hN)
  have hfits : (F64.mul (F64.div (F64.fin 100) rate) (F64.ofInt N)).fitsInt :=
    ⟨hfin, le_trans (by norm_num) h0, hfit⟩
  refine ⟨?_, ?_⟩
  · simp [RateTable.get?, currencies, List.lookup_cons, ofRat_JPY]
  · rw [ServeHTTP_code_amount C rate s N hC hs, toInt_floor _ hfits]
    rfl

/-- Witness for C1, amended: the code `USD` and the amount `100`. -/
theorem convert_nonneg_amount_witness :
    currencies.get? (str "JPY") = some (F64.fin 100) ∧
    ServeHTTP ⟨currencies⟩ ResponseWriter.fresh (Request.ofValue (str "USD" ++ str "100")) =
      some ⟨some (str "application/json"), some 200, [Payload.convert
        ⟨⌊(F64.mul (F64.div (F64.fin 100) (F64.ofRat (82 / 100))) (F64.ofInt 100)).toRat⌋⟩]⟩ :=
  convert_nonneg_amount (str "USD") (F64.ofRat (82 / 100)) (str "100") 100
    (by decide!) (by decide) (by decide) (by decide!)

/-- Counterexample to C6 as stated: the amount `9007199254740993` (that is `2^53 + 1`) is
accepted by validation, but `float64` rounds it to `2^53`, and the answer for
`JPY9007199254740993` is `9007199254740992`. -/
theorem JPY_identity_counterexample :
    Atoi (str "9007199254740993") = (9007199254740993, none) ∧
    ServeHTTP ⟨currencies⟩ ResponseWriter.fresh (Request.ofValue (str "JPY9007199254740993")) =
      some (answerResponse 9007199254740992) ∧
    ServeHTTP ⟨currencies⟩ ResponseWriter.fresh (Request.ofValue (str "JPY9007199254740993")) ≠
      some (answerResponse 9007199254740993) := by
  refine ⟨by decide, by decide!, by decide!⟩

/-- C6, amended: for every amount `N` accepted by validation that `float64` represents
exactly (`float64(N) = N`, which holds in particular whenever `|N| <= 2^53`), the value
`JPY` followed by the text of `N` yields status 200 with answer `N`. -/
theorem JPY_identity (s : GoString) (N : Int) (hs : Atoi s = (N, none))
    (hN : |N| ≤ 2 ^ 53 ∨ (F64.ofInt N).toRat = (N : ℚ)) :
    ServeHTTP ⟨currencies⟩ ResponseWriter.fresh (Request.ofValue (str "JPY" ++ s)) =
      some ⟨some (str "application/json"), some 200, [Payload.convert ⟨N⟩]⟩ := by
  have hC : currencies.get? (str "JPY") = some (F64.ofRat 100) := by
    simp [RateTable.get?, currencies, List.lookup_cons]
  rw [ServeHTTP_code_amount (str "JPY") (F64.ofRat 100) s N hC hs, div_JPY]
  have hrange : inIntRange N := Atoi_inIntRange s N hs
  by_cases h0 : N = 0
  · subst h0
    have : (F64.floor (F64.mul (F64.fin 1) (F64.ofInt 0))).toInt = 0 := by decide!
    rw [this]
    rfl
  · have hq : (N : ℚ) ≠ 0 := by exact_mod_cast h0
    have h1 : F64.ofInt N = F64.fin (N : ℚ) := by
      rcases hN with hN | hN
      · exact round_intCast N h0 hN false
      · cases hx : F64.ofInt N with
        | nan => rw [hx] at hN; exact absurd hN.symm hq
        | inf b => rw [hx] at hN; exact absurd hN.symm hq
        | zero b => rw [hx] at hN; exact absurd hN.symm hq
        | fin x =>
          rw [hx] at hN
          simp only [F64.toRat] at hN
          rw [hN]
    have h2 : F64.mul (F64.fin 1) (F64.fin (N : ℚ)) = F64.fin (N : ℚ) := by
      simp only [F64.mul, one_mul]
      rw [round_sign_irrelevant (N : ℚ) hq _ false]
      exact h1
    have h3 : (F64.fin (N : ℚ)).fitsInt := by
      refine ⟨rfl, ?_⟩
      simp only [F64.toRat, Int.floor_intCast]
      exact hrange
    rw [h1, h2, toInt_floor _ h3]
    simp only [F64.toRat, Int.floor_intCast]
    rfl

/-- Witness for C6, amended: the spec's scenario `JPY100`, which gives 100, and the amount
`2^60`, above `2^53` but exactly representable. -/
theorem JPY_identity_witness :
    ServeHTTP ⟨currencies⟩ ResponseWriter.fresh (Request.ofValue (str "JPY" ++ str "100")) =
      some ⟨some (str "application/json"), some 200, [Payload.convert ⟨100⟩]⟩ ∧
    ServeHTTP ⟨currencies⟩ ResponseWriter.fresh
      (Request.ofValue (str "JPY" ++ str "1152921504606846976")) =
      some ⟨some (str "application/json"), some 200, [Payload.convert ⟨1152921504606846976⟩]⟩ :=
  ⟨JPY_identity (str "100") 100 (by decide) (Or.inl (by decide)),
    JPY_identity (str "1152921504606846976") 1152921504606846976 (by decide)
      (Or.inr (by decide!))⟩

/-- Counterexample to C7 as stated: `USD` is a known code and the negative amount
`-9223372036854775808` is accepted by validation, but the floor of the double-precision
product is `-1124801467909119016960`, below the range of a 64-bit `int`, and the answer
is `-9223372036854775808`, not that floor. -/
theorem convert_negative_counterexample :
    currencies.get? (str "USD") = some (F64.ofRat (82 / 100)) ∧
    Atoi (str "-9223372036854775808") = (-9223372036854775808, none) ∧
    ⌊(F64.mul (F64.div (F64.fin 100) (F64.ofRat (82 / 100)))
        (F64.ofInt (-9223372036854775808))).toRat⌋ = -1124801467909119016960 ∧
    ServeHTTP ⟨currencies⟩ ResponseWriter.fresh
      (Request.ofValue (str "USD-9223372036854775808")) =
        some (answerResponse (-9223372036854775808)) ∧
    ServeHTTP ⟨currencies⟩ ResponseWriter.fresh
      (Request.ofValue (str "USD-9223372036854775808")) ≠
        some (answerResponse ⌊(F64.mul (F64.div (F64.fin 100) (F64.ofRat (82 / 100)))
          (F64.ofInt (-9223372036854775808))).toRat⌋) := by
  refine ⟨by decide!, by decide, by decide!, by decide!, by decide!⟩

/-- C7, amended: for every code `C` of the default table and every accepted negative
amount `N` for which the floor of the double-precision product `rate(JPY) / rate(C) * N`
is at least `-2^63` (it fits the 64-bit `int` result type), the answer is that floor,
rounding toward negative infinity: it never exceeds the product, and whenever the product
is not an integer the answer is strictly below it and one less than its truncation toward
zero. -/
theorem convert_negative_amount (C : GoString) (rate : F64) (s : GoString) (N : Int)
    (hC : currencies.get? C = some rate) (hs : Atoi s = (N, none)) (hN : N < 0)
    (hfit : -(2 ^ 63) ≤ ⌊(F64.mul (F64.div (F64.fin 100) rate) (F64.ofInt N)).toRat⌋) :
    ServeHTTP ⟨currencies⟩ ResponseWriter.fresh (Request.ofValue (C ++ s)) =
      some ⟨some (str "application/json"), some 200, [Payload.convert
        ⟨⌊(F64.mul (F64.div (F64.fin 100) rate) (F64.ofInt N)).toRat⌋⟩]⟩ ∧
    ((⌊(F64.mul (F64.div (F64.fin 100) rate) (F64.ofInt N)).toRat⌋ : Int) : ℚ) ≤
      (F64.mul (F64.div (F64.fin 100) rate) (F64.ofInt N)).toRat ∧
    ((F64.mul (F64.div (F64.fin 100) rate) (F64.ofInt N)).toRat ≠
        ((⌊(F64.mul (F64.div (F64.fin 100) rate) (F64.ofInt N)).toRat⌋ : Int) : ℚ) →
      ((⌊(F64.mul (F64.div (F64.fin 100) rate) (F64.ofInt N)).toRat⌋ : Int) : ℚ) <
        (F64.mul (F64.div (F64.fin 100) rate) (F64.ofInt N)).toRat ∧
      ⌊(F64.mul (F64.div (F64.fin 100) rate) (F64.ofInt N)).toRat⌋ =
        truncate (F64.mul (F64.div (F64.fin 100) rate) (F64.ofInt N)).toRat - 1) := by
  obtain ⟨hfin, _, hneg⟩ := conversion_facts C rate N hC (Atoi_inIntRange s N hs)
  have hle := hneg hN.le
  have e := ServeHTTP_code_amount C rate s N hC hs
  generalize F64.mul (F64.div (F64.fin 100) rate) (F64.ofInt N) = P at hfit hfin hle e
  have hfl : ⌊P.toRat⌋ ≤ 0 := by
    have : ⌊P.toRat⌋ ≤ ⌊(0 : ℚ)⌋ := Int.floor_le_floor hle
    simpa using this
  have hfits : P.fitsInt := ⟨hfin, hfit, lt_of_le_of_lt hfl (by norm_num)⟩
  refine ⟨?_, Int.floor_le _, ?_⟩
  · rw [e, toInt_floor _ hfits]
    rfl
  · intro hne
    have hlt : ((⌊P.toRat⌋ : Int) : ℚ) < P.toRat := lt_of_le_of_ne (Int.floor_le _) hne.symm
    refine ⟨hlt, ?_⟩
    have hq : P.toRat < 0 := by
      rcases lt_or_eq_of_le hle with h | h
      · exact h
      · exfalso
        apply hne
        rw [h]
        simp
    have hc : ⌈P.toRat⌉ = ⌊P.toRat⌋ + 1 := by
      rw [Int.ceil_eq_iff]
      constructor
      · push_cast
        linarith
      · push_cast
        exact (Int.lt_floor_add_one _).le
    simp only [truncate, hq, if_true, Int.floor_neg, neg_neg, hc]
    omega

/-- Witness for C7, amended: the code `USD` and the amount `-1`. -/
theorem convert_negative_amount_witness :
    ServeHTTP ⟨currencies⟩ ResponseWriter.fresh (Request.ofValue (str "USD" ++ str "-1")) =
      some ⟨some (str "application/json"), some 200, [Payload.convert
        ⟨⌊(F64.mul (F64.div (F64.fin 100) (F64.ofRat (82 / 100))) (F64.ofInt (-1))).toRat⌋⟩]⟩ ∧
    ((⌊(F64.mul (F64.div (F64.fin 100) (F64.ofRat (82 / 100))) (F64.ofInt (-1))).toRat⌋ : Int)
        : ℚ) ≤ (F64.mul (F64.div (F64.fin 100) (F64.ofRat (82 / 100))) (F64.ofInt (-1))).toRat ∧
    ((F64.mul (F64.div (F64.fin 100) (F64.ofRat (82 / 100))) (F64.ofInt (-1))).toRat ≠
        ((⌊(F64.mul (F64.div (F64.fin 100) (F64.ofRat (82 / 100)))
          (F64.ofInt (-1))).toRat⌋ : Int) : ℚ) →
      ((⌊(F64.mul (F64.div (F64.fin 100) (F64.ofRat (82 / 100)))
          (F64.ofInt (-1))).toRat⌋ : Int) : ℚ) <
        (F64.mul (F64.div (F64.fin 100) (F64.ofRat (82 / 100))) (F64.ofInt (-1))).toRat ∧
      ⌊(F64.mul (F64.div (F64.fin 100) (F64.ofRat (82 / 100))) (F64.ofInt (-1))).toRat⌋ =
        truncate (F64.mul (F64.div (F64.fin 100) (F64.ofRat (82 / 100)))
          (F64.ofInt (-1))).toRat - 1) :=
  convert_negative_amount (str "USD") (F64.ofRat (82 / 100)) (str "-1") (-1)
    (by decide!) (by decide) (by decide) (by decide!)

/-- The value `USD-1` gives the answer -122: the floor of -121.95..., neither its
truncation toward zero (-121) nor anything above the product. -/
theorem USD_minus_one :
    ServeHTTP ⟨currencies⟩ ResponseWriter.fresh (Request.ofValue (str "USD-1")) =
      some (answerResponse (-122)) ∧
    truncate (F64.mul (F64.div (F64.fin 100) (F64.ofRat (82 / 100))) (F64.ofInt (-1))).toRat
      = -121 := by
  refine ⟨by decide!, by decide!⟩

/-- Counterexample to C8 as stated: the handler does not answer 100 for `USD100`. -/
theorem USD100_counterexample :
    ¬ (ServeHTTP ⟨currencies⟩ ResponseWriter.fresh (Request.ofValue (str "USD100")) =
      some ⟨some (str "application/json"), some 200, [Payload.convert ⟨100⟩]⟩) := by
  decide!

/-- C8, amended: for the request value `USD100` the handler responds with status 200 and
answer 12195. -/
theorem USD100_response :
    ServeHTTP ⟨currencies⟩ ResponseWriter.fresh (Request.ofValue (str "USD100")) =
      some ⟨some (str "application/json"), some 200, [Payload.convert ⟨12195⟩]⟩ := by
  decide!

/-- C9: with the default table the conversion expression for `USD100` is
`100 / 0.82 * 100` in double precision, a value between 12195.12 and 12195.13, whose floor
is 12195; the integer produced is 12195. -/
theorem USD100_conversion :
    (Atoi ((str "USD100").drop 3)).1 = 100 ∧
    currencies.get ((str "USD100").take 3) = F64.ofRat (82 / 100) ∧
    currencies.get (str "JPY") = F64.ofRat 100 ∧
    (1219512 : ℚ) / 100 <
      (F64.mul (F64.div (F64.ofRat 100) (F64.ofRat (82 / 100))) (F64.ofInt 100)).toRat ∧
    (F64.mul (F64.div (F64.ofRat 100) (F64.ofRat (82 / 100))) (F64.ofInt 100)).toRat <
      (1219513 : ℚ) / 100 ∧
    F64.floor (conversion currencies (currencies.get ((str "USD100").take 3))
      (Atoi ((str "USD100").drop 3)).1) = F64.fin 12195 ∧
    (F64.floor (conversion currencies (currencies.get ((str "USD100").take 3))
      (Atoi ((str "USD100").drop 3)).1)).toInt = 12195 := by
  refine ⟨by decide, by decide!, by decide!, by decide!, by decide!, by decide!, by decide!⟩

/-! ## The table, the frame and the safety of the request path -/

/-- C11: `currencies()` returns exactly the five entries JPY=100, USD=0.82, EUR=0.74,
BRL=3.96, AUD=1.09 (each rate the `float64` of its literal), and every key of the table is
exactly 3 characters (3 bytes of ASCII) long and every rate is a finite double strictly
greater than 0. -/
theorem currencies_table :
    currencies = [(str "JPY", F64.ofRat 100), (str "USD", F64.ofRat (82 / 100)),
      (str "EUR", F64.ofRat (74 / 100)), (str "BRL", F64.ofRat (396 / 100)),
      (str "AUD", F64.ofRat (109 / 100))] ∧
    currencies.length = 5 ∧
    (currencies.map Prod.fst).Nodup ∧
    (∀ p ∈ currencies, p.1.length = 3 ∧ ∃ q : ℚ, p.2 = F64.fin q ∧ 0 < q) ∧
    (∀ k ∈ ["JPY", "USD", "EUR", "BRL", "AUD"], k.length = 3 ∧ (str k).length = 3) := by
  refine ⟨rfl, rfl, by decide, ?_, by decide⟩
  intro p hp
  simp only [currencies, List.mem_cons, List.mem_singleton, List.not_mem_nil, or_false] at hp
  rcases hp with h | h | h | h | h
  · rw [h]
    exact ⟨by decide, 100, ofRat_JPY, by norm_num⟩
  · rw [h]
    exact ⟨by decide, _, ofRat_USD, by norm_num⟩
  · rw [h]
    exact ⟨by decide, _, ofRat_EUR, by norm_num⟩
  · rw [h]
    exact ⟨by decide, _, ofRat_BRL, by norm_num⟩
  · rw [h]
    exact ⟨by decide, _, ofRat_AUD, by norm_num⟩

theorem ServeHTTP_total (h : convertHandler) (w : ResponseWriter) (r : Request) :
    ∃ w1 : ResponseWriter, ServeHTTP h w r = some w1 := by
  rcases r with ⟨_ | ⟨⟨v⟩⟩⟩
  · exact ⟨_, rfl⟩
  · simp only [ServeHTTP, IsValid_eq]
    by_cases hv : 4 ≤ v.length ∧ (Atoi (v.drop 3)).2 = none
    · have h3 : 3 ≤ v.length := by omega
      rcases hk : h.currencies.get? (List.take 3 v) with _ | rate
      · simp [hv, sliceTo, h3, hk]
      · simp [hv, sliceTo, sliceFrom, h3, hk]
    · simp [hv]

/-- The state-passing method leaves its receiver as it was and writes the response of
`ServeHTTP`. -/
theorem ServeHTTP_run (h : convertHandler) (w : ResponseWriter) (r : Request) :
    (convertHandler.ServeHTTP w r).run h = (ServeHTTP h w r).map (fun w1 => (w1, h)) := by
  rcases r with ⟨_ | ⟨⟨v⟩⟩⟩
  · rfl
  · simp only [convertHandler.ServeHTTP, ServeHTTP, IsValid_eq]
    by_cases hv : 4 ≤ v.length ∧ (Atoi (v.drop 3)).2 = none
    · have h3 : 3 ≤ v.length := by omega
      rcases hk : h.currencies.get? (List.take 3 v) with _ | rate
      · simp [hv, sliceTo, h3, hk, readRateOk, StateT.run, bind, StateT.bind, pure,
          StateT.pure, liftM, monadLift, MonadLift.monadLift, StateT.lift, get, getThe,
          MonadStateOf.get, StateT.get]
      · simp [hv, sliceTo, sliceFrom, h3, hk, readRateOk, readRate, StateT.run, bind,
          StateT.bind, pure, StateT.pure, liftM, monadLift, MonadLift.monadLift, StateT.lift,
          get, getThe, MonadStateOf.get, StateT.get]
    · simp [hv, StateT.run, bind, StateT.bind, pure, StateT.pure, liftM, monadLift,
        MonadLift.monadLift, StateT.lift]

/-- An assignment through the receiver is visible in the state: the frame property is a
property of the body of `ServeHTTP`, not of every method. -/
theorem assignRate_run (h : convertHandler) (k : GoString) (x : F64) :
    ∃ h1 : convertHandler, (assignRate k x).run h = some ((), h1) ∧
      h1.currencies.get? k = some x := by
  refine ⟨_, rfl, ?_⟩
  simp [RateTable.get?, List.lookup_cons]

theorem serveAll_run (h : convertHandler) (rs : List Request) :
    ∃ ws : List ResponseWriter, (serveAll rs).run h = some (ws, h) ∧
      ws.map some = rs.map (fun r => ServeHTTP h ResponseWriter.fresh r) := by
  induction rs with
  | nil => exact ⟨[], rfl, rfl⟩
  | cons r rs ih =>
    obtain ⟨ws, h1, h2⟩ := ih
    obtain ⟨w1, hw1⟩ := ServeHTTP_total h ResponseWriter.fresh r
    have hr := ServeHTTP_run h ResponseWriter.fresh r
    rw [hw1] at hr
    refine ⟨w1 :: ws, ?_, ?_⟩
    · simp only [serveAll, StateT.run_bind, hr, Option.map_some', Option.bind_eq_bind,
        Option.some_bind, h1, StateT.run_pure]
      rfl
    · simp [h2, hw1]

/-- C12: `ServeHTTP` never modifies the handler's rate table: with the receiver threaded
as state through every statement of the method, the handler after the call is the handler
before it, on every path, and the response is the one computed from the request and that
table alone. Hence, over any sequence of requests served by one handler, the table at the
end is the table at the start and identical requests get identical responses, wherever
they stand in the sequence. -/
theorem table_unchanged (h : convertHandler) (w : ResponseWriter) (r : Request)
    (rs : List Request) :
    (∃ w1 : ResponseWriter, (convertHandler.ServeHTTP w r).run h = some (w1, h) ∧
      ServeHTTP h w r = some w1) ∧
    (∀ (h1 : convertHandler) (w1 : ResponseWriter),
      (convertHandler.ServeHTTP w r).run h = some (w1, h1) → h1.currencies = h.currencies) ∧
    (∃ ws : List ResponseWriter, (serveAll rs).run h = some (ws, h) ∧
      ws.length = rs.length ∧
      ws.map some = rs.map (fun r => ServeHTTP h ResponseWriter.fresh r) ∧
      ∀ i j : Nat, rs.get? i = rs.get? j → ws.get? i = ws.get? j) := by
  obtain ⟨w1, hw1⟩ := ServeHTTP_total h w r
  have hr := ServeHTTP_run h w r
  rw [hw1] at hr
  refine ⟨⟨w1, hr, hw1⟩, ?_, ?_⟩
  · intro h1 w2 hh
    rw [hr] at hh
    simp only [Option.map_some', Option.some.injEq, Prod.mk.injEq] at hh
    rw [hh.2]
  · obtain ⟨ws, h1, h2⟩ := serveAll_run h rs
    refine ⟨ws, h1, ?_, h2, ?_⟩
    · have := congrArg List.length h2
      simpa using this
    · intro i j hij
      have hi : (ws.map some).get? i = (ws.map some).get? j := by
        rw [h2]
        simp only [List.get?_eq_getElem?, List.getElem?_map] at hij ⊢
        rw [hij]
      simp only [List.get?_eq_getElem?, List.getElem?_map] at hi ⊢
      rcases hwi : ws[i]? with _ | a <;> rcases hwj : ws[j]? with _ | b <;>
        simp [hwi, hwj] at hi ⊢
      exact hi

/-- Witness for C12: `USD100` served twice with `XYZ1` and a malformed body in between
gets the same response both times, and the handler is left as it was. -/
theorem table_unchanged_witness :
    ∃ ws : List ResponseWriter,
      (serveAll [Request.ofValue (str "USD100"), Request.ofValue (str "XYZ1"), ⟨none⟩,
        Request.ofValue (str "USD100")]).run ⟨currencies⟩ = some (ws, ⟨currencies⟩) ∧
      ws.get? 0 = ws.get? 3 :=
  match (table_unchanged ⟨currencies⟩ ResponseWriter.fresh ⟨none⟩
    [Request.ofValue (str "USD100"), Request.ofValue (str "XYZ1"), ⟨none⟩,
      Request.ofValue (str "USD100")]).2.2 with
  | ⟨ws, h1, _, _, h4⟩ => ⟨ws, h1, h4 0 3 rfl⟩

/-- C13: no slice of the request path goes out of range. The slice expressions `v[3:]`
and `v[:3]` do panic on a string of fewer than 3 bytes, but `IsValid` returns (without
panic) for every string, it returns true only for strings on which both slices are in
range, and for every handler, writer and request, the empty value and values of 1 to 3
bytes included, `ServeHTTP` returns a response. -/
theorem no_slice_panic (h : convertHandler) (w : ResponseWriter) (r : Request)
    (v : GoString) :
    (∃ w1 : ResponseWriter, ServeHTTP h w r = some w1) ∧
    (∃ w1 : ResponseWriter, ServeHTTP h w (Request.ofValue v) = some w1) ∧
    (∃ b : Bool, ConvertRequest.IsValid ⟨v⟩ = some b) ∧
    (sliceFrom v 3 = none ↔ v.length < 3) ∧ (sliceTo v 3 = none ↔ v.length < 3) ∧
    (ConvertRequest.IsValid ⟨v⟩ = some true ↔
      (4 ≤ v.length ∧ sliceFrom v 3 = some (v.drop 3) ∧ sliceTo v 3 = some (v.take 3) ∧
        (Atoi (v.drop 3)).2 = none)) ∧
    (v.length < 4 → ConvertRequest.IsValid ⟨v⟩ = some false) := by
  refine ⟨ServeHTTP_total h w r, ServeHTTP_total h w _, ⟨_, IsValid_eq v⟩, ?_, ?_, ?_, ?_⟩
  · simp [sliceFrom]
  · simp [sliceTo]
  · rw [IsValid_eq]
    simp only [Option.some.injEq, decide_eq_true_eq, sliceFrom, sliceTo]
    constructor
    · rintro ⟨a, b⟩
      have h3 : 3 ≤ v.length := by omega
      exact ⟨a, by simp [h3], by simp [h3], b⟩
    · rintro ⟨a, _, _, b⟩
      exact ⟨a, b⟩
  · intro hl
    rw [IsValid_eq]
    have : ¬ 4 ≤ v.length := by omega
    simp [this]

/-- Witness for C13: the empty value and the one-byte value `U` make both slices panic,
yet the handler responds. -/
theorem no_slice_panic_witness :
    (∃ w1 : ResponseWriter, ServeHTTP ⟨currencies⟩ ResponseWriter.fresh
      (Request.ofValue []) = some w1) ∧
    sliceFrom (str "U") 3 = none ∧
    ConvertRequest.IsValid ⟨str "U"⟩ = some false :=
  ⟨(no_slice_panic ⟨currencies⟩ ResponseWriter.fresh (Request.ofValue []) (str "U")).1,
    (no_slice_panic ⟨currencies⟩ ResponseWriter.fresh (Request.ofValue [])
      (str "U")).2.2.2.1.mpr (by decide),
    (no_slice_panic ⟨currencies⟩ ResponseWriter.fresh (Request.ofValue [])
      (str "U")).2.2.2.2.2.2 (by decide)⟩

/-- The handler answers 200 only on the path through the conversion: the value has at
least 4 bytes, its suffix parsed without error and its prefix is a key of the table. -/
theorem reaches_conversion (h : convertHandler) (v : GoString) (w : ResponseWriter)
    (hw : ServeHTTP h ResponseWriter.fresh (Request.ofValue v) = some w)
    (h200 : w.status = some 200) :
    4 ≤ v.length ∧ (Atoi (v.drop 3)).2 = none ∧
    ∃ rate : F64, h.currencies.get? (v.take 3) = some rate ∧
      w = answerResponse (F64.floor (conversion h.currencies rate (Atoi (v.drop 3)).1)).toInt
    := by
  rw [ServeHTTP_ofValue] at hw
  by_cases hc : v.length < 4 ∨ (Atoi (v.drop 3)).2 ≠ none
  · rw [if_pos hc] at hw
    have := Option.some.inj hw
    rw [← this] at h200
    simp [errorResponse] at h200
  · rw [if_neg hc] at hw
    have hl : 4 ≤ v.length := by
      by_contra hl
      exact hc (Or.inl (by omega))
    have hp : (Atoi (v.drop 3)).2 = none := by
      by_contra hp
      exact hc (Or.inr hp)
    rcases hk : h.currencies.get? (v.take 3) with _ | rate
    · rw [hk] at hw
      have := Option.some.inj hw
      rw [← this] at h200
      simp [errorResponse] at h200
    · rw [hk] at hw
      exact ⟨hl, hp, rate, rfl, (Option.some.inj hw).symm⟩

/-- C14: a suffix that is a well-formed signed decimal numeral whose value lies outside
the signed 64-bit range is not parsed by `strconv.Atoi`, so `IsValid` returns false and
the handler answers 400 with message `"Invalid format: "` followed by the value; hence
every amount that reaches the conversion lies between `-2^63` and `2^63 - 1`. -/
theorem out_of_range_rejected (h : convertHandler) (v : GoString) :
    (4 ≤ v.length → isSignedDecimal (v.drop 3) = true →
      ¬ inIntRange (signedValue (v.drop 3)) →
      (Atoi (v.drop 3)).2 ≠ none ∧ ConvertRequest.IsValid ⟨v⟩ = some false ∧
      ServeHTTP h ResponseWriter.fresh (Request.ofValue v) =
        some (errorResponse (str "Invalid format: " ++ v))) ∧
    (∀ w : ResponseWriter, ServeHTTP h ResponseWriter.fresh (Request.ofValue v) = some w →
      w.status = some 200 →
      -(2 ^ 63) ≤ (Atoi (v.drop 3)).1 ∧ (Atoi (v.drop 3)).1 ≤ 2 ^ 63 - 1) := by
  constructor
  · intro _ _ hout
    have hp : (Atoi (v.drop 3)).2 ≠ none := fun hp =>
      hout ((Atoi_spec (v.drop 3)).1.mp hp).2
    refine ⟨hp, ?_, ?_⟩
    · rw [IsValid_eq]
      simp [hp]
    · rw [ServeHTTP_ofValue, if_pos (Or.inr hp)]
  · intro w hw h200
    obtain ⟨_, hp, _⟩ := reaches_conversion h v w hw h200
    obtain ⟨h1, h2⟩ := Atoi_spec (v.drop 3)
    have hr := (h1.mp hp).2
    rw [← h2 hp] at hr
    obtain ⟨lo, hi⟩ := hr
    exact ⟨lo, by omega⟩

/-- Witness for C14: the suffix of `USD9223372036854775808` is `2^63`, and `USD100`
reaches the conversion. -/
theorem out_of_range_rejected_witness :
    ((Atoi ((str "USD9223372036854775808").drop 3)).2 ≠ none ∧
      ConvertRequest.IsValid ⟨str "USD9223372036854775808"⟩ = some false ∧
      ServeHTTP ⟨currencies⟩ ResponseWriter.fresh
        (Request.ofValue (str "USD9223372036854775808")) =
        some (errorResponse (str "Invalid format: " ++ str "USD9223372036854775808"))) ∧
    (-(2 ^ 63) ≤ (Atoi ((str "USD100").drop 3)).1 ∧
      (Atoi ((str "USD100").drop 3)).1 ≤ 2 ^ 63 - 1) :=
  ⟨(out_of_range_rejected ⟨currencies⟩ (str "USD9223372036854775808")).1 (by decide)
      (by decide) (by unfold inIntRange; decide),
    (out_of_range_rejected ⟨currencies⟩ (str "USD100")).2 (answerResponse 12195)
      (by decide!) (by decide)⟩

/-- C15: the error discarded by the second parse is always nil. Whenever the handler
reaches the conversion (it answers 200), `IsValid` has returned true on the same value,
the slice `v[3:]` is the one `IsValid` parsed, `strconv.Atoi` returns no error on it, and
`num` is the integer that the suffix denotes. -/
theorem second_parse_succeeds (h : convertHandler) (v : GoString) (w : ResponseWriter)
    (hw : ServeHTTP h ResponseWriter.fresh (Request.ofValue v) = some w)
    (h200 : w.status = some 200) :
    ConvertRequest.IsValid ⟨v⟩ = some true ∧
    sliceFrom v 3 = some (v.drop 3) ∧
    (Atoi (v.drop 3)).2 = none ∧
    isSignedDecimal (v.drop 3) = true ∧
    (Atoi (v.drop 3)).1 = signedValue (v.drop 3) ∧
    ∃ rate : F64, h.currencies.get? (v.take 3) = some rate ∧
      w = answerResponse (F64.floor (F64.mul (F64.div (h.currencies.get (str "JPY")) rate)
        (F64.ofInt (signedValue (v.drop 3))))).toInt := by
  obtain ⟨hl, hp, rate, hk, hw2⟩ := reaches_conversion h v w hw h200
  obtain ⟨h1, h2⟩ := Atoi_spec (v.drop 3)
  have h3 : 3 ≤ v.length := by omega
  refine ⟨?_, by simp [sliceFrom, h3], hp, (h1.mp hp).1, h2 hp, rate, hk, ?_⟩
  · rw [IsValid_eq]
    simp [hl, hp]
  · rw [hw2, h2 hp]
    rfl

/-- Witness for C15: the value `USD100`. -/
theorem second_parse_succeeds_witness :
    ConvertRequest.IsValid ⟨str "USD100"⟩ = some true ∧
    sliceFrom (str "USD100") 3 = some ((str "USD100").drop 3) ∧
    (Atoi ((str "USD100").drop 3)).2 = none ∧
    isSignedDecimal ((str "USD100").drop 3) = true ∧
    (Atoi ((str "USD100").drop 3)).1 = signedValue ((str "USD100").drop 3) ∧
    ∃ rate : F64, (⟨currencies⟩ : convertHandler).currencies.get? ((str "USD100").take 3) =
        some rate ∧
      answerResponse 12195 = answerResponse (F64.floor (F64.mul
        (F64.div ((⟨currencies⟩ : convertHandler).currencies.get (str "JPY")) rate)
        (F64.ofInt (signedValue ((str "USD100").drop 3))))).toInt :=
  second_parse_succeeds ⟨currencies⟩ (str "USD100") (answerResponse 12195)
    (by decide!) (by decide)

/-- C16: with the default table, whenever the handler reaches the division (it answers
200) the divisor is the rate of a key present in the table, a finite double `q` strictly
greater than 0, and the numerator lookup `currencies["JPY"]` finds the entry 100, not the
zero default of the map; the quotient is a finite positive double `f`, and the response
is the one computed by dividing exactly these two operands: the conversion neither
divides by zero nor computes `0/x`. -/
theorem division_operands (v : GoString) (w : ResponseWriter)
    (hw : ServeHTTP ⟨currencies⟩ ResponseWriter.fresh (Request.ofValue v) = some w)
    (h200 : w.status = some 200) :
    currencies.get? (str "JPY") = some (F64.fin 100) ∧
    currencies.get (str "JPY") = F64.fin 100 ∧
    ∃ q f : ℚ, currencies.get? (v.take 3) = some (F64.fin q) ∧
      currencies.get (v.take 3) = F64.fin q ∧ 0 < q ∧
      F64.div (currencies.get (str "JPY")) (currencies.get (v.take 3)) = F64.fin f ∧
      0 < f ∧
      F64.div (F64.fin 100) (F64.fin q) = F64.fin f ∧
      w = ⟨some (str "application/json"), some 200, [Payload.convert
        ⟨(F64.floor (F64.mul (F64.div (F64.fin 100) (F64.fin q))
          (F64.ofInt (Atoi (v.drop 3)).1))).toInt⟩]⟩ ∧
      w = ⟨some (str "application/json"), some 200, [Payload.convert
        ⟨(F64.floor (F64.mul (F64.fin f) (F64.ofInt (Atoi (v.drop 3)).1))).toInt⟩]⟩ := by
  obtain ⟨_, _, rate, hk, hw2⟩ := reaches_conversion ⟨currencies⟩ v w hw h200
  simp only at hk hw2
  have hJ : currencies.get? (str "JPY") = some (F64.fin 100) := by
    simp [RateTable.get?, currencies, List.lookup_cons, ofRat_JPY]
  obtain ⟨f, hf1, _, hf⟩ := rate_factor (v.take 3) rate hk
  have hg : currencies.get (v.take 3) = rate := by
    simp only [RateTable.get?] at hk
    simp [RateTable.get, hk]
  have hq : ∃ q : ℚ, rate = F64.fin q ∧ 0 < q := by
    rcases currencies_get?_cases (v.take 3) rate hk with h | h | h | h | h
    · exact ⟨_, by rw [h.2]; exact ofRat_JPY, by norm_num⟩
    · exact ⟨_, by rw [h.2]; exact ofRat_USD, by norm_num⟩
    · exact ⟨_, by rw [h.2]; exact ofRat_EUR, by norm_num⟩
    · exact ⟨_, by rw [h.2]; exact ofRat_BRL, by norm_num⟩
    · exact ⟨_, by rw [h.2]; exact ofRat_AUD, by norm_num⟩
  obtain ⟨q, hq1, hq2⟩ := hq
  have hfq : F64.div (F64.fin 100) (F64.fin q) = F64.fin f := by
    rw [← hq1]
    exact hf
  refine ⟨hJ, currencies_get_JPY, q, f, ?_, ?_, hq2, ?_, lt_of_lt_of_le one_pos hf1, hfq,
    ?_, ?_⟩
  · rw [hk, hq1]
  · rw [hg, hq1]
  · rw [currencies_get_JPY, hg]
    exact hf
  · rw [hw2, conversion, currencies_get_JPY, hq1]
    rfl
  · rw [hw2, conversion, currencies_get_JPY, hf]
    rfl

/-- Witness for C16: the value `USD100`. -/
theorem division_operands_witness :
    currencies.get? (str "JPY") = some (F64.fin 100) ∧
    currencies.get (str "JPY") = F64.fin 100 ∧
    ∃ q f : ℚ, currencies.get? ((str "USD100").take 3) = some (F64.fin q) ∧
      currencies.get ((str "USD100").take 3) = F64.fin q ∧ 0 < q ∧
      F64.div (currencies.get (str "JPY")) (currencies.get ((str "USD100").take 3)) =
        F64.fin f ∧
      0 < f ∧
      F64.div (F64.fin 100) (F64.fin q) = F64.fin f ∧
      answerResponse 12195 = ⟨some (str "application/json"), some 200, [Payload.convert
        ⟨(F64.floor (F64.mul (F64.div (F64.fin 100) (F64.fin q))
          (F64.ofInt (Atoi ((str "USD100").drop 3)).1))).toInt⟩]⟩ ∧
      answerResponse 12195 = ⟨some (str "application/json"), some 200, [Payload.convert
        ⟨(F64.floor (F64.mul (F64.fin f)
          (F64.ofInt (Atoi ((str "USD100").drop 3)).1))).toInt⟩]⟩ :=
  division_operands (str "USD100") (answerResponse 12195) (by decide!) (by decide)

/-! ## Monotonicity of rounding -/

theorem roundHalfEven_bounds (x : ℚ) : ⌊x⌋ ≤ roundHalfEven x ∧ roundHalfEven x ≤ ⌊x⌋ + 1 := by
  unfold roundHalfEven
  simp only
  split_ifs <;> omega

theorem roundHalfEven_mono (x y : ℚ) (h : x ≤ y) : roundHalfEven x ≤ roundHalfEven y := by
  have hf : ⌊x⌋ ≤ ⌊y⌋ := Int.floor_le_floor h
  rcases lt_or_eq_of_le hf with hlt | heq
  · have h1 := (roundHalfEven_bounds x).2
    have h2 := (roundHalfEven_bounds y).1
    omega
  · have hr : x - (⌊x⌋ : ℚ) ≤ y - (⌊y⌋ : ℚ) := by
      rw [heq]
      linarith
    unfold roundHalfEven
    simp only
    split_ifs <;> first
      | omega
      | (exfalso; linarith)

theorem pow2_lt_iff (a b : Int) : pow2 a < pow2 b ↔ a < b := by
  rw [pow2_eq_zpow, pow2_eq_zpow]
  exact zpow_lt_zpow_iff_right₀ (by norm_num)

theorem pow2_le_iff (a b : Int) : pow2 a ≤ pow2 b ↔ a ≤ b := by
  rw [pow2_eq_zpow, pow2_eq_zpow]
  exact zpow_le_zpow_iff_right₀ (by norm_num)

theorem floorExp_lt (q : ℚ) (hq : 0 < q) : q < pow2 (floorExp q + 1) := by
  unfold floorExp
  simp only
  split_ifs with h
  · have hnum : 0 < q.num := Rat.num_pos.mpr hq
    have hn0 : q.num.natAbs ≠ 0 := Int.natAbs_ne_zero.mpr hnum.ne.symm
    obtain ⟨_, b, _⟩ := bitLen_spec q.num.natAbs hn0
    obtain ⟨a', _, c'⟩ := bitLen_spec q.den q.den_nz
    have e : ((bitLen q.num.natAbs : Int) - (bitLen q.den : Int) + 1)
        = ((bitLen q.num.natAbs : Nat) : Int) - ((bitLen q.den - 1 : Nat) : Int) := by omega
    rw [pow2_eq_zpow, e, zpow_sub₀ (by norm_num : (2 : ℚ) ≠ 0), zpow_natCast, zpow_natCast]
    have hden : (0 : ℚ) < q.den := by exact_mod_cast q.den_pos
    have h1 : (q.num.natAbs : ℚ) < (2 : ℚ) ^ bitLen q.num.natAbs := by exact_mod_cast b
    have h2 : (2 : ℚ) ^ (bitLen q.den - 1) ≤ (q.den : ℚ) := by exact_mod_cast a'
    have h3 : ((q.num.natAbs : Nat) : ℚ) = (q.num : ℚ) := by
      have : ((q.num.natAbs : Nat) : Int) = q.num := Int.natAbs_of_nonneg hnum.le
      rw [← Int.cast_natCast, this]
    have h4 : q = (q.num : ℚ) / (q.den : ℚ) := (Rat.num_div_den q).symm
    rw [h3] at h1
    have hp : (0 : ℚ) < (2 : ℚ) ^ (bitLen q.den - 1) := by positivity
    calc q = (q.num : ℚ) / (q.den : ℚ) := h4
      _ ≤ (q.num : ℚ) / (2 : ℚ) ^ (bitLen q.den - 1) :=
          div_le_div_of_nonneg_left (by exact_mod_cast hnum.le) hp h2
      _ < (2 : ℚ) ^ bitLen q.num.natAbs / (2 : ℚ) ^ (bitLen q.den - 1) :=
          div_lt_div_of_pos_right h1 hp
  · have e : (bitLen q.num.natAbs : Int) - (bitLen q.den : Int) - 1 + 1
        = (bitLen q.num.natAbs : Int) - (bitLen q.den : Int) := by ring
    rw [e]
    exact not_le.mp h

theorem floorExp_mono (p q : ℚ) (hp : 0 < p) (h : p ≤ q) : floorExp p ≤ floorExp q := by
  have h1 := floorExp_le p hp
  have h2 := floorExp_lt q (lt_of_lt_of_le hp h)
  have h3 : pow2 (floorExp p) < pow2 (floorExp q + 1) := lt_of_le_of_lt (le_trans h1 h) h2
  have := (pow2_lt_iff _ _).mp h3
  omega

theorem pow2_split (e : Int) (k : Nat) :
    pow2 (e + k) = (((2 : Int) ^ k : Int) : ℚ) * pow2 e := by
  rw [pow2_eq_zpow, pow2_eq_zpow, zpow_add₀ (by norm_num : (2 : ℚ) ≠ 0), zpow_natCast]
  push_cast
  ring

theorem roundMag_ge_pow2 (q : ℚ) (h : pow2 (max (floorExp q) (-1022)) ≤ q) :
    pow2 (max (floorExp q) (-1022)) ≤ roundMag q := by
  have hu := ulp_pos q
  have hs : pow2 (max (floorExp q) (-1022)) = (((2 : Int) ^ 52 : Int) : ℚ) * ulp q := by
    have := pow2_split (max (floorExp q) (-1022) - 52) 52
    simp only [Nat.cast_ofNat, sub_add_cancel] at this
    rw [this, ulp]
  rw [hs] at h ⊢
  rw [roundMag_eq]
  have h1 : (((2 : Int) ^ 52 : Int) : ℚ) ≤ q / ulp q := (le_div_iff₀ hu).mpr h
  have h2 := roundHalfEven_mono _ _ h1
  rw [roundHalfEven_intCast] at h2
  have h3 : (((2 : Int) ^ 52 : Int) : ℚ) ≤ (roundHalfEven (q / ulp q) : ℚ) := by
    exact_mod_cast h2
  exact mul_le_mul_of_nonneg_right h3 hu.le

theorem roundMag_le_pow2 (q : ℚ) (hq : 0 < q) :
    roundMag q ≤ pow2 (max (floorExp q) (-1022) + 1) := by
  have hu := ulp_pos q
  have hs : pow2 (max (floorExp q) (-1022) + 1) = (((2 : Int) ^ 53 : Int) : ℚ) * ulp q := by
    have := pow2_split (max (floorExp q) (-1022) - 52) 53
    have e : max (floorExp q) (-1022) - 52 + ((53 : Nat) : Int)
        = max (floorExp q) (-1022) + 1 := by
      push_cast
      ring
    rw [e] at this
    rw [this, ulp]
  have hlt : q ≤ pow2 (max (floorExp q) (-1022) + 1) := by
    have h1 := floorExp_lt q hq
    have h2 : pow2 (floorExp q + 1) ≤ pow2 (max (floorExp q) (-1022) + 1) :=
      (pow2_le_iff _ _).mpr (by have := le_max_left (floorExp q) (-1022); omega)
    linarith
  rw [hs] at hlt ⊢
  rw [roundMag_eq]
  have h1 : q / ulp q ≤ (((2 : Int) ^ 53 : Int) : ℚ) := (div_le_iff₀ hu).mpr hlt
  have h2 := roundHalfEven_mono _ _ h1
  rw [roundHalfEven_intCast] at h2
  have h3 : (roundHalfEven (q / ulp q) : ℚ) ≤ (((2 : Int) ^ 53 : Int) : ℚ) := by
    exact_mod_cast h2
  exact mul_le_mul_of_nonneg_right h3 hu.le

/-- Rounding to the binary64 grid is monotone on positive rationals. -/
theorem roundMag_mono (p q : ℚ) (hp : 0 < p) (h : p ≤ q) : roundMag p ≤ roundMag q := by
  have hq : 0 < q := lt_of_lt_of_le hp h
  have hE : max (floorExp p) (-1022) ≤ max (floorExp q) (-1022) :=
    max_le_max (floorExp_mono p q hp h) le_rfl
  rcases lt_or_eq_of_le hE with hlt | heq
  · have hfe : max (floorExp q) (-1022) = floorExp q := by
      apply max_eq_left
      have := le_max_right (floorExp p) (-1022)
      by_contra hcon
      have : max (floorExp q) (-1022) = -1022 := max_eq_right (by omega)
      omega
    have h1 := roundMag_le_pow2 p hp
    have h2 : pow2 (max (floorExp q) (-1022)) ≤ q := by
      rw [hfe]
      exact floorExp_le q hq
    have h3 := roundMag_ge_pow2 q h2
    have h4 : pow2 (max (floorExp p) (-1022) + 1) ≤ pow2 (max (floorExp q) (-1022)) :=
      (pow2_le_iff _ _).mpr (by omega)
    linarith
  · have hu : ulp p = ulp q := by
      unfold ulp
      rw [heq]
    rw [roundMag_eq, roundMag_eq, hu]
    have hpos := ulp_pos q
    have h1 : p / ulp q ≤ q / ulp q := div_le_div_of_nonneg_right h hpos.le
    have h2 := roundHalfEven_mono _ _ h1
    have h3 : (roundHalfEven (p / ulp q) : ℚ) ≤ (roundHalfEven (q / ulp q) : ℚ) := by
      exact_mod_cast h2
    exact mul_le_mul_of_nonneg_right h3 hpos.le

theorem round_toRat_of_pos (q : ℚ) (neg : Bool) (hq : 0 < q)
    (hfin : (F64.round q neg).isFinite = true) : (F64.round q neg).toRat = roundMag q := by
  have h0 : q ≠ 0 := hq.ne.symm
  have hn : ¬ q < 0 := not_lt.mpr hq.le
  unfold F64.round at hfin ⊢
  simp only [h0, if_false, abs_of_pos hq, hn] at hfin ⊢
  split_ifs at hfin ⊢ with h1 h2
  · simp [F64.isFinite] at hfin
  · simp [F64.toRat, h2]
  · simp [F64.toRat]

theorem round_toRat_of_neg (q : ℚ) (neg : Bool) (hq : q < 0)
    (hfin : (F64.round q neg).isFinite = true) :
    (F64.round q neg).toRat = -roundMag (-q) := by
  have h0 : q ≠ 0 := hq.ne
  unfold F64.round at hfin ⊢
  simp only [h0, if_false, abs_of_neg hq, hq, if_true] at hfin ⊢
  split_ifs at hfin ⊢ with h1 h2
  · simp [F64.isFinite] at hfin
  · simp [F64.toRat, h2]
  · simp [F64.toRat]

/-- Rounding is monotone in the value of its result, as long as it does not overflow. -/
theorem round_toRat_mono (p q : ℚ) (b c : Bool) (h : p ≤ q)
    (hp : (F64.round p b).isFinite = true) (hq : (F64.round q c).isFinite = true) :
    (F64.round p b).toRat ≤ (F64.round q c).toRat := by
  by_cases h1 : 0 < p
  · rw [round_toRat_of_pos p b h1 hp, round_toRat_of_pos q c (lt_of_lt_of_le h1 h) hq]
    exact roundMag_mono p q h1 h
  · have hp0 : p ≤ 0 := not_lt.mp h1
    by_cases h2 : 0 ≤ q
    · exact le_trans (round_toRat_nonpos p b hp0) (round_toRat_nonneg q c h2)
    · have hq0 : q < 0 := not_le.mp h2
      have hp1 : p < 0 := lt_of_le_of_lt h hq0
      rw [round_toRat_of_neg p b hp1 hp, round_toRat_of_neg q c hq0 hq]
      have := roundMag_mono (-q) (-p) (by linarith) (by linarith)
      linarith

theorem ofInt_mono (M N : Int) (hM : inIntRange M) (hN : inIntRange N) (h : M ≤ N) :
    (F64.ofInt M).toRat ≤ (F64.ofInt N).toRat :=
  round_toRat_mono _ _ _ _ (by exact_mod_cast h) (ofInt_facts M hM).1 (ofInt_facts N hN).1

theorem mul_fin_eq_round (f : ℚ) (y : F64) (hy : y.isFinite = true) :
    ∃ b : Bool, F64.mul (F64.fin f) y = F64.round (f * y.toRat) b := by
  cases y with
  | nan => simp [F64.isFinite] at hy
  | inf b => simp [F64.isFinite] at hy
  | zero b => exact ⟨xor (decide (f < 0)) b, by simp [F64.mul, F64.round, F64.toRat, F64.sign]⟩
  | fin x => exact ⟨_, rfl⟩

/-- Under the default table the double-precision conversion is monotone in the amount. -/
theorem conversion_mono (C : GoString) (rate : F64) (M N : Int)
    (hC : currencies.get? C = some rate) (hM : inIntRange M) (hN : inIntRange N)
    (h : M ≤ N) :
    (F64.mul (F64.div (F64.fin 100) rate) (F64.ofInt M)).toRat ≤
      (F64.mul (F64.div (F64.fin 100) rate) (F64.ofInt N)).toRat := by
  obtain ⟨f, hf1, hf2, hf⟩ := rate_factor C rate hC
  obtain ⟨aM, bM, _, _⟩ := ofInt_facts M hM
  obtain ⟨aN, bN, _, _⟩ := ofInt_facts N hN
  have finM := (mul_fin_facts f hf1 hf2 (F64.ofInt M) aM bM).1
  have finN := (mul_fin_facts f hf1 hf2 (F64.ofInt N) aN bN).1
  obtain ⟨b1, e1⟩ := mul_fin_eq_round f (F64.ofInt M) aM
  obtain ⟨b2, e2⟩ := mul_fin_eq_round f (F64.ofInt N) aN
  rw [hf]
  rw [e1] at finM ⊢
  rw [e2] at finN ⊢
  have hf0 : 0 ≤ f := le_trans zero_le_one hf1
  exact round_toRat_mono _ _ _ _
    (mul_le_mul_of_nonneg_left (ofInt_mono M N hM hN h) hf0) finM finN

/-- C17: for every code `C` of the default table and all accepted amounts `M <= N` whose
converted values fit the 64-bit `int` result type, the answer for `C` followed by `M` is
at most the answer for `C` followed by `N`; and the answer for the amount 0 is 0. -/
theorem conversion_monotone (C : GoString) (rate : F64) (sM sN : GoString) (M N : Int)
    (hC : currencies.get? C = some rate)
    (hsM : Atoi sM = (M, none)) (hsN : Atoi sN = (N, none)) (hMN : M ≤ N)
    (hfM : inIntRange ⌊(F64.mul (F64.div (F64.fin 100) rate) (F64.ofInt M)).toRat⌋)
    (hfN : inIntRange ⌊(F64.mul (F64.div (F64.fin 100) rate) (F64.ofInt N)).toRat⌋) :
    (∃ a b : Int,
      ServeHTTP ⟨currencies⟩ ResponseWriter.fresh (Request.ofValue (C ++ sM)) =
        some ⟨some (str "application/json"), some 200, [Payload.convert ⟨a⟩]⟩ ∧
      ServeHTTP ⟨currencies⟩ ResponseWriter.fresh (Request.ofValue (C ++ sN)) =
        some ⟨some (str "application/json"), some 200, [Payload.convert ⟨b⟩]⟩ ∧
      a ≤ b) ∧
    (∀ s0 : GoString, Atoi s0 = (0, none) →
      ServeHTTP ⟨currencies⟩ ResponseWriter.fresh (Request.ofValue (C ++ s0)) =
        some ⟨some (str "application/json"), some 200, [Payload.convert ⟨0⟩]⟩) := by
  have hM := Atoi_inIntRange sM M hsM
  have hN := Atoi_inIntRange sN N hsN
  constructor
  · refine ⟨_, _, ?_, ?_, Int.floor_le_floor (conversion_mono C rate M N hC hM hN hMN)⟩
    · rw [ServeHTTP_code_amount C rate sM M hC hsM,
        toInt_floor _ ⟨(conversion_facts C rate M hC hM).1, hfM⟩]
      rfl
    · rw [ServeHTTP_code_amount C rate sN N hC hsN,
        toInt_floor _ ⟨(conversion_facts C rate N hC hN).1, hfN⟩]
      rfl
  · intro s0 hs0
    obtain ⟨f, _, _, hf⟩ := rate_factor C rate hC
    rw [ServeHTTP_code_amount C rate s0 0 hC hs0, hf]
    have : (F64.floor (F64.mul (F64.fin f) (F64.ofInt 0))).toInt = 0 := by
      simp [F64.ofInt, F64.round, F64.mul, F64.floor, F64.toInt]
    rw [this]
    rfl

/-- Witness for C17: the code `USD` with the amounts `-1 <= 100`, and the amount `0`. -/
theorem conversion_monotone_witness :
    (∃ a b : Int,
      ServeHTTP ⟨currencies⟩ ResponseWriter.fresh (Request.ofValue (str "USD" ++ str "-1")) =
        some ⟨some (str "application/json"), some 200, [Payload.convert ⟨a⟩]⟩ ∧
      ServeHTTP ⟨currencies⟩ ResponseWriter.fresh (Request.ofValue (str "USD" ++ str "100")) =
        some ⟨some (str "application/json"), some 200, [Payload.convert ⟨b⟩]⟩ ∧
      a ≤ b) ∧
    (∀ s0 : GoString, Atoi s0 = (0, none) →
      ServeHTTP ⟨currencies⟩ ResponseWriter.fresh (Request.ofValue (str "USD" ++ s0)) =
        some ⟨some (str "application/json"), some 200, [Payload.convert ⟨0⟩]⟩) :=
  conversion_monotone (str "USD") (F64.ofRat (82 / 100)) (str "-1") (str "100") (-1) 100
    (by decide!) (by decide) (by decide) (by decide)
    (by unfold inIntRange; decide!) (by unfold inIntRange; decide!)

end CurrencyService
